import Mathlib

/-!
Verification development for a flat-file skill repository with an
LLM-backed router.  JavaScript strings are modelled as `List Char`;
the filesystem and the persisted key/value store are modelled as
explicit state values.  The external YAML parser is modelled on the
simple block-mapping fragment that this repository reads and writes
(see `yamlParseDoc`).
-/

namespace AiSkills

/-- JavaScript strings are modelled as lists of characters. -/
abbrev JStr := List Char

/-- Embed a Lean string literal as a modelled JavaScript string. -/
def js (s : String) : JStr := s.data

/-- Characters removed by `String.prototype.trim` (ASCII fragment). -/
def jsIsWs (c : Char) : Bool := c = ' ' || c = '\t' || c = '\n' || c = '\r'

/-- Drop leading whitespace, as the left half of `trim`. -/
def trimLeft (s : JStr) : JStr := s.dropWhile jsIsWs

/-- Drop trailing whitespace, as the right half of `trim`. -/
def trimRight (s : JStr) : JStr := (s.reverse.dropWhile jsIsWs).reverse

/-- Model of `String.prototype.trim`. -/
def jsTrim (s : JStr) : JStr := trimRight (trimLeft s)

/-- Model of `String.prototype.toUpperCase` (ASCII fragment). -/
def jsToUpper (s : JStr) : JStr := s.map Char.toUpper

/-- The three-hyphen frontmatter delimiter. -/
def p3 : JStr := ['-', '-', '-']

/-- Model of `String.prototype.indexOf(pat, i)`: first index at or
after `i` where `pat` occurs.  `i` is the index already consumed; the
scan argument is the remaining suffix. -/
def findSubFrom (pat : JStr) : JStr → Nat → Option Nat
  | [], _ => none
  | c :: rest, i =>
    if pat.isPrefixOf (c :: rest) then some i else findSubFrom pat rest (i + 1)

/-- `s.indexOf(pat, start)` for a non-empty pattern. -/
def indexOfFrom (pat s : JStr) (start : Nat) : Option Nat :=
  findSubFrom pat (s.drop start) start

/-- A parsed YAML value in the fragment this repository uses: a plain
scalar string or a flow sequence of strings. -/
inductive YVal where
  | str : JStr → YVal
  | arr : List JStr → YVal
deriving DecidableEq, Repr

/-- A parsed YAML mapping, in document key order. -/
abbrev YObj := List (JStr × YVal)

/-- A parsed YAML document: `none` models the YAML `null` produced for
an empty document, `some` a top-level mapping. -/
abbrev YDoc := Option YObj

/-- Split a string at the first colon: `some (before, after)`. -/
def splitAtColon : JStr → Option (JStr × JStr)
  | [] => none
  | c :: rest =>
    if c = ':' then some ([], rest)
    else (splitAtColon rest).map (fun p => (c :: p.1, p.2))

/-- Characters allowed in the plain-scalar fragment on which the YAML
model agrees with a real YAML 1.2 parser. -/
def scalarChar (c : Char) : Bool :=
  c.isAlphanum || c = '-' || c = '_' || c = '.' || c = ' '

/-- Plain scalars that a YAML 1.2 core-schema parser resolves to the
identical string: non-empty, made of `scalarChar`s, starting with a
letter, not ending in a space, and not a boolean or null keyword. -/
def yamlKeywords : List JStr :=
  [js "true", js "True", js "TRUE", js "false", js "False", js "FALSE",
   js "null", js "Null", js "NULL"]

/-- Safe plain scalar predicate (see `scalarChar`). -/
def safePlain (s : JStr) : Bool :=
  !s.isEmpty && s.all scalarChar &&
    (match s with | c :: _ => c.isAlpha | [] => false) &&
    !(s.getLast? == some ' ') && !(yamlKeywords.contains s)

/-- Does the string contain three consecutive hyphens? -/
def hasTriple : JStr → Bool
  | [] => false
  | c :: rest => p3.isPrefixOf (c :: rest) || hasTriple rest

/-- A scalar that round-trips through the frontmatter document format:
a safe plain scalar that does not contain the `---` delimiter. -/
def safeValue (s : JStr) : Bool := safePlain s && !hasTriple s

/-- A capability identifier safe inside a JSON / YAML flow array of
double-quoted strings. -/
def safeTool (s : JStr) : Bool := s.all scalarChar && !hasTriple s

/-- Scan the characters of a double-quoted string after the opening
quote; returns the contents and the rest after the closing quote.
Escape sequences are outside the modelled fragment. -/
def scanString : JStr → Option (JStr × JStr)
  | [] => none
  | c :: rest =>
    if c = '"' then some ([], rest)
    else if c = '\\' then none
    else (scanString rest).map (fun p => (c :: p.1, p.2))

/-- Parse the items of a non-empty flow sequence of double-quoted
strings followed by the closing bracket; fuel bounds the recursion. -/
def parseItemsAux : Nat → JStr → Option (List JStr)
  | 0, _ => none
  | fuel + 1, s =>
    match s with
    | c :: rest =>
      if c = '"' then
        match scanString rest with
        | some (item, after) =>
          match after with
          | d :: more =>
            if d = ',' then (parseItemsAux fuel more).map (item :: ·)
            else if d = ']' then (if more.isEmpty then some [item] else none)
            else none
          | [] => none
        | none => none
      else none
    | [] => none

/-- Parse a YAML flow sequence (JSON array) of strings. -/
def parseFlowArr (v : JStr) : Option (List JStr) :=
  match v with
  | c :: rest =>
    if c = '[' then
      if rest = [']'] then some [] else parseItemsAux rest.length rest
    else none
  | [] => none

/-- Parse a YAML value in the fragment: a flow sequence of strings, or
a safe plain scalar taken verbatim.  Anything else is outside the
modelled fragment and rejected. -/
def parseValue (v : JStr) : Option YVal :=
  match jsTrim v with
  | c :: rest =>
    if c = '[' then (parseFlowArr (c :: rest)).map YVal.arr
    else if safePlain (c :: rest) then some (YVal.str (c :: rest)) else none
  | [] => none

/-- Keys in the modelled fragment: word characters and hyphens,
starting with a letter. -/
def goodKey (k : JStr) : Bool :=
  !k.isEmpty && k.all (fun c => c.isAlphanum || c = '-' || c = '_') &&
    (match k with | c :: _ => c.isAlpha | [] => false)

/-- Parse one `key: value` line of a block mapping. -/
def parseLine (l : JStr) : Option (JStr × YVal) :=
  match splitAtColon l with
  | some (k, rest) =>
    if goodKey k then
      match rest with
      | c :: v => if c = ' ' then (parseValue v).map (fun w => (k, w)) else none
      | [] => none
    else none
  | none => none

/-- Split a string into its newline-separated lines. -/
def splitLines : JStr → List JStr
  | [] => [[]]
  | c :: rest =>
    if c = '\n' then [] :: splitLines rest
    else
      match splitLines rest with
      | l :: ls => (c :: l) :: ls
      | [] => [[c]]

/-- Model of the external YAML parser (the `yaml` npm package) on the
fragment this repository reads and writes: a whitespace-only document
is the YAML `null`; otherwise a block mapping of one `key: value`
line per key, with duplicate keys rejected.  Inputs outside this
fragment are rejected (`Except.error` models a thrown parse error),
and no theorem below depends on the behaviour outside the fragment. -/
def yamlParseDoc (s : JStr) : Except Unit YDoc :=
  if s.all jsIsWs then .ok none
  else
    match (splitLines s).mapM parseLine with
    | some kvs =>
      if (kvs.map Prod.fst).Nodup then .ok (some kvs) else .error ()
    | none => .error ()

/-- Model of the kebab-to-camel key rewrite in `parseSkillMarkdown`:
each hyphen followed by a lowercase letter becomes that letter in
upper case. -/
def camelKey : JStr → JStr
  | [] => []
  | '-' :: c :: rest =>
    if c.isLower then c.toUpper :: camelKey rest else '-' :: camelKey (c :: rest)
  | c :: rest => c :: camelKey rest

/-- JavaScript object property write: replace the value of an existing
key in place, else append the key at the end. -/
def objInsert (o : YObj) (k : JStr) (v : YVal) : YObj :=
  if o.any (fun p => p.1 = k) then
    o.map (fun p => if p.1 = k then (k, v) else p)
  else o ++ [(k, v)]

/-- JavaScript object property read. -/
def objGet (o : YObj) (k : JStr) : Option YVal :=
  (o.find? (fun p => p.1 = k)).map Prod.snd

/-- The camelisation loop of `parseSkillMarkdown`: for each key of the
parsed object (in order), write the value back under the camelCase
key into the same object. -/
def camelize (o : YObj) : YObj :=
  o.foldl (fun acc p => objInsert acc (camelKey p.1) p.2) o

/-- Result of `parseSkillMarkdown`: the (possibly null) metadata object
and the trimmed body. -/
structure Parsed where
  metadata : YDoc
  content : JStr
deriving DecidableEq, Repr

/-- Model of `parseSkillMarkdown` (src/unnamed/part_000, lines 24-55):
require the document to start with `---`; find the next `---` at or
after index 3; YAML-parse the trimmed text in between; camelise the
keys; the body is the trimmed text after the closing delimiter. -/
def parseSkillMarkdown (content : JStr) : Option Parsed :=
  if p3.isPrefixOf content then
    match indexOfFrom p3 content 3 with
    | none => none
    | some e =>
      let frontmatterText := jsTrim ((content.take e).drop 3)
      let markdownContent := jsTrim (content.drop (e + 3))
      match yamlParseDoc frontmatterText with
      | .ok (some obj) => some ⟨some (camelize obj), markdownContent⟩
      | .ok none => some ⟨none, markdownContent⟩
      | .error _ => none
  else none

/-- JavaScript truthiness of an optional metadata field: a missing
field and the empty string are falsy; arrays are always truthy. -/
def truthy : Option YVal → Bool
  | some (.str s) => !s.isEmpty
  | some (.arr _) => true
  | none => false

/-- Template-literal stringification of a metadata field value: a
string is itself, an array joins its elements with commas. -/
def yvalToStr : YVal → JStr
  | .str s => s
  | .arr l => List.intercalate (js ",") l

/-- Template-literal stringification of an optional field; a missing
field stringifies to the text `undefined`. -/
def optToStr : Option YVal → JStr
  | some v => yvalToStr v
  | none => js "undefined"

/-- Model of `JSON.stringify` on an array of escape-free strings. -/
def jsonItems : List JStr → JStr
  | [] => [']']
  | [t] => '"' :: (t ++ '"' :: [']'])
  | t :: t2 :: ts => '"' :: (t ++ '"' :: ',' :: jsonItems (t2 :: ts))

/-- Model of `JSON.stringify` on an array of escape-free strings. -/
def jsonArr (ts : List JStr) : JStr := '[' :: jsonItems ts

/-- Model of `JSON.stringify` on a single metadata value, as used by
`updateSkill` when the merged allowed-tools field is not an array. -/
def jsonOfYVal : YVal → JStr
  | .arr l => jsonArr l
  | .str s => '"' :: (s ++ ['"'])

/-- The document text written by `createSkill` (src/unnamed/part_000,
lines 236-279): `name` and `description` always, `allowed-tools` only
for a non-empty list, `model` only for a non-empty string, then the
closing delimiter, a blank line, and the body. -/
def createSkillDoc (name description : JStr) (allowedTools : Option (List JStr))
    (model : Option JStr) (content : JStr) : JStr :=
  js "---\nname: " ++ name ++ js "\ndescription: " ++ description ++
    (match allowedTools with
     | some ts => if ts.isEmpty then [] else js "\nallowed-tools: " ++ jsonArr ts
     | none => []) ++
    (match model with
     | some m => if m.isEmpty then [] else js "\nmodel: " ++ m
     | none => []) ++
    js "\n---\n\n" ++ content

/-! ### Filesystem model

A configured storage root is either absent from disk (`none`) or a
path plus a list of directory entries.  A skill directory carries the
optional `SKILL.md` content, whether a lower-case `skill.md` exists
instead, and its other entries with an is-regular-file flag. -/

/-- An entry of a skill directory other than its `SKILL.md`. -/
structure DirEnt where
  name : JStr
  isFile : Bool
deriving DecidableEq, Repr

/-- A subdirectory of a storage root. -/
structure SkillDir where
  dirName : JStr
  skillMd : Option JStr
  lowerMd : Bool
  entries : List DirEnt
deriving DecidableEq, Repr

/-- An entry of a storage root: a stray file or a skill directory. -/
inductive RootEnt where
  | file : JStr → RootEnt
  | dir : SkillDir → RootEnt
deriving DecidableEq, Repr

/-- The entries of one storage root, in directory order. -/
abbrev Root := List RootEnt

/-- The configured storage roots in order; `none` models a configured
path that does not exist on disk. -/
abbrev FS := List (Option (JStr × Root))

/-- Model of `path.join` on normal segments. -/
def pathJoin (a b : JStr) : JStr := a ++ '/' :: b

/-- A discovered skill record (the `ClaudeSkill` shape). -/
structure ClaudeSkill where
  name : JStr
  path : JStr
  metadata : YObj
  content : JStr
  supportingFiles : List JStr
  skillMdPath : JStr
deriving DecidableEq, Repr

/-- Per-directory step of `getAllSkills` (src/unnamed/part_000, lines
146-204).  A missing `SKILL.md` (with or without a lower-case
variant) is skipped; an unparsable document is skipped; a document
whose metadata is YAML `null` makes the property read
`parsed.metadata.name` throw, modelled as `Except.error`; a falsy
name or description is skipped; otherwise the record is built. -/
def processDir (folder : JStr) (d : SkillDir) : Except Unit (Option ClaudeSkill) :=
  match d.skillMd with
  | none => .ok none
  | some content =>
    match parseSkillMarkdown content with
    | none => .ok none
    | some p =>
      match p.metadata with
      | none => .error ()
      | some obj =>
        if truthy (objGet obj (js "name")) && truthy (objGet obj (js "description")) then
          .ok (some
            { name := d.dirName
              path := pathJoin folder d.dirName
              metadata := obj
              content := p.content
              supportingFiles :=
                (d.entries.filter (fun e => e.name ≠ js "SKILL.md" && e.isFile)).map DirEnt.name
              skillMdPath := pathJoin (pathJoin folder d.dirName) (js "SKILL.md") })
        else .ok none

/-- Collect the skills of one existing root, in directory order. -/
def rootSkillsE (folder : JStr) : List RootEnt → Except Unit (List ClaudeSkill)
  | [] => .ok []
  | .file _ :: rest => rootSkillsE folder rest
  | .dir d :: rest => do
    let s? ← processDir folder d
    let more ← rootSkillsE folder rest
    pure (match s? with | some s => s :: more | none => more)

/-- Collect the skills across all configured roots, skipping roots
that do not exist. -/
def fsSkillsE : FS → Except Unit (List ClaudeSkill)
  | [] => .ok []
  | none :: rest => fsSkillsE rest
  | some (p, r) :: rest => do
    let a ← rootSkillsE p r
    let b ← fsSkillsE rest
    pure (a ++ b)

/-- Model of `getAllSkills`: the whole enumeration runs inside one
try/catch whose handler returns the empty list. -/
def getAllSkills (fs : FS) : List ClaudeSkill :=
  match fsSkillsE fs with
  | .ok l => l
  | .error _ => []

/-- The lookup predicate of `findSkill` and of the router resolution:
directory name or declared metadata name equals the identifier. -/
def skillMatches (n : JStr) (s : ClaudeSkill) : Bool :=
  s.name = n ||
    (match objGet s.metadata (js "name") with
     | some (.str m) => m = n
     | _ => false)

/-- Model of `findSkill` (src/unnamed/part_000, lines 209-212): first
discovered skill whose directory name or metadata name matches. -/
def findSkill (n : JStr) (fs : FS) : Option ClaudeSkill :=
  (getAllSkills fs).find? (skillMatches n)

/-- `fs.mkdirSync(path, { recursive: true })` inside a root: keep an
existing directory, else append a fresh empty one. -/
def mkdirRec (r : Root) (n : JStr) : Root :=
  if r.any (fun e => match e with | .dir d => d.dirName = n | .file _ => false) then r
  else r ++ [.dir ⟨n, none, false, []⟩]

/-- `fs.writeFileSync` of `SKILL.md` inside the named directory:
overwrite the document, keep everything else. -/
def writeSkillMd (r : Root) (n doc : JStr) : Root :=
  r.map (fun e =>
    match e with
    | .dir d => if d.dirName = n then .dir { d with skillMd := some doc } else .dir d
    | .file f => .file f)

/-- Model of `createSkill` on its target root: make the directory if
needed, then (over)write `SKILL.md` with the serialized document. -/
def createSkill (r : Root) (name description content : JStr)
    (allowedTools : Option (List JStr)) (model : Option JStr) : Root :=
  writeSkillMd (mkdirRec r name) name
    (createSkillDoc name description allowedTools model content)

/-- The partial update accepted by `updateSkill`; `none` models a key
absent from the update object. -/
structure SkillUpdates where
  description : Option JStr
  content : Option JStr
  allowedTools : Option (List JStr)
  model : Option JStr
deriving DecidableEq, Repr

/-- Truthiness of `v && v.length > 0` for a metadata field value. -/
def yvalLenPos : YVal → Bool
  | .arr l => !l.isEmpty
  | .str s => !s.isEmpty

/-- The document rewritten by `updateSkill` (src/unnamed/part_000,
lines 284-334): frontmatter regenerated from the merged metadata —
only `name`, `description`, `allowed-tools` and `model` are ever
emitted — followed by the updated or current body. -/
def rebuildDoc (m : YObj) (u : SkillUpdates) (curBody : JStr) : JStr :=
  js "---\nname: " ++ optToStr (objGet m (js "name")) ++ js "\ndescription: " ++
    optToStr ((u.description.map YVal.str).orElse (fun _ => objGet m (js "description"))) ++
    (match (u.allowedTools.map YVal.arr).orElse (fun _ => objGet m (js "allowedTools")) with
     | some v => if yvalLenPos v then js "\nallowed-tools: " ++ jsonOfYVal v else []
     | none => []) ++
    (match (u.model.map YVal.str).orElse (fun _ => objGet m (js "model")) with
     | some v => if truthy (some v) then js "\nmodel: " ++ yvalToStr v else []
     | none => []) ++
    js "\n---\n\n" ++ (u.content.getD curBody)

/-- Model of the document-rewriting core of `updateSkill`: `skillMeta`
is the metadata of the record `findSkill` returned (parsed from the
same on-disk document); the current document is re-read and re-parsed
for its body; a failed re-parse returns null. -/
def updateSkillDoc (skillMeta : YObj) (doc : JStr) (u : SkillUpdates) : Option JStr :=
  match parseSkillMarkdown doc with
  | none => none
  | some p => some (rebuildDoc skillMeta u p.content)

/-! ### Enablement store

The persisted value under the enabled-skills key is modelled as the
decoded list of names; JSON serialization of a list of strings
round-trips and is not modelled. -/

/-- Model of `getEnabledSkills` on a decoded store state. -/
def getEnabledSkills (st : List JStr) : List JStr := st

/-- Model of `isSkillEnabled`. -/
def isSkillEnabled (skillName : JStr) (st : List JStr) : Bool :=
  (getEnabledSkills st).contains skillName

/-- Model of `disableSkill`: filter the name out and store the rest. -/
def disableSkill (skillName : JStr) (st : List JStr) : List JStr :=
  (getEnabledSkills st).filter (fun name => name ≠ skillName)

/-- Model of `getRoutingModel`: the saved value, with the empty string
collapsed to null (`saved || null`). -/
def getRoutingModel (stored : Option JStr) : Option JStr :=
  match stored with
  | some s => if s.isEmpty then none else some s
  | none => none

/-! ### Router (src/src/tools/use-skills.ts) -/

/-- The quote characters stripped from a classification response. -/
def isQuoteChar (c : Char) : Bool := c = '"' || c = Char.ofNat 39

/-- Model of the global regex replace that deletes one leading and one
trailing quote character: an index is removed when it is position 0
holding a quote, or the last position holding a quote (the two
alternatives of the regex; for a one-character string both describe
the same index, matching the non-overlap of the scan). -/
def jsStripQuotes (s : JStr) : JStr :=
  (s.enum.filter (fun p =>
    !((p.1 = 0 && isQuoteChar p.2) || (p.1 + 1 = s.length && isQuoteChar p.2)))).map
    Prod.snd

/-- Drop a single leading quote character if present. -/
def dropStartQuote : JStr → JStr
  | [] => []
  | c :: rest => if isQuoteChar c then rest else c :: rest

/-- Drop a single trailing quote character if present. -/
def dropEndQuote (s : JStr) : JStr :=
  match s.getLast? with
  | some c => if isQuoteChar c then s.dropLast else s
  | none => []

/-- The normalisation applied to the raw classification response:
trim, then strip one layer of surrounding quote characters. -/
def normalizeResponse (r : JStr) : JStr := jsStripQuotes (jsTrim r)

/-- Model of `selectSkillWithAI` over the outcome of the single
external call: a thrown error is caught and becomes null; a returned
text is normalised and compared case-insensitively against the NONE
sentinel.  The classification prompt influences only the external
oracle and is not modelled. -/
def selectSkillWithAI (aiResult : Except Unit JStr) : Option JStr :=
  match aiResult with
  | .error _ => none
  | .ok r =>
    let t := normalizeResponse r
    if jsToUpper t = js "NONE" then none else some t

/-- The setup-guidance text returned when no routing model is
configured, verbatim. -/
def setupGuidance : JStr :=
  (String.data "# Setup Required\n\nBefore using AI Skills, you need to configure your routing model preference.\n\n## What is a Routing Model?\n\nThe routing model is a fast AI model that intelligently selects which skill to use based on your request.\n\n## How to Setup\n\n1. Open \"Manage Skills\" command in Raycast\n2. Click \"Setup Preferences\" (gear icon)\n3. Select your preferred routing model (we recommend **Gemini 2.5 Flash Lite**)\n4. The selection is saved automatically\n\nOnce configured, you can use AI Skills to help with various tasks!")

/-- The text returned when no skills are enabled, verbatim. -/
def noSkillsEnabledMessage : JStr :=
  (String.data "No AI Skills are currently enabled.\n\nTo enable skills:\n1. Open \"Manage Skills\" command\n2. Use Cmd+T to toggle skills on/off\n3. Once enabled, skills will be available here\n\nSkills must be enabled before they can be used by the AI.")

/-- Decimal rendering of a JavaScript number for interpolation. -/
def natToStr (n : Nat) : JStr := (toString n).data

/-- One line of the enabled-skills list in the no-match message. -/
def noMatchLine (p : Nat × ClaudeSkill) : JStr :=
  natToStr (p.1 + 1) ++ js ". **" ++ optToStr (objGet p.2.metadata (js "name")) ++
    js "** - " ++ optToStr (objGet p.2.metadata (js "description"))

/-- Model of `formatNoMatchMessage`, verbatim. -/
def formatNoMatchMessage (skills : List ClaudeSkill) : JStr :=
  (String.data "# No Suitable Skill Found\n\nThe user\x27s request doesn\x27t clearly match any of your available AI Skills.\n\n## WHAT YOU SHOULD DO\n\n**Respond to the user directly using your general capabilities.** Don\x27t try to force a skill match.\n\nHelp the user with their request to the best of your ability. If you need clarification about what they want, ask them.\n\n---\n\n## Available Skills (") ++
    natToStr skills.length ++
    (String.data ")\n\nFor your reference, here are the skills that are currently enabled:\n\n") ++
    List.intercalate (js "\n") (skills.enum.map noMatchLine) ++
    (String.data "\n\n---\n\n## TIPS\n\n- If the user mentions a specific skill name by name, let them know it\x27s not available\n- If you think a skill MIGHT be relevant but you\x27re not sure, you can ask: \"Would you like me to use the [skill-name] skill for this?\"\n- The user can enable more skills or create new ones through the \"Manage Skills\" command")

/-- Model of `formatSkillResponse`, verbatim. -/
def formatSkillResponse (skill : ClaudeSkill) : JStr :=
  (String.data "# Using Skill: ") ++ optToStr (objGet skill.metadata (js "name")) ++
    (String.data "\n\n**Purpose:** ") ++ optToStr (objGet skill.metadata (js "description")) ++
    (String.data "\n\n---\n\n## YOUR TASK\n\nYou have been selected to help with this request because this skill matches what the user needs. Follow these steps:\n\n1. **READ and UNDERSTAND** the skill instructions below\n2. **APPLY** the instructions directly to address the user\x27s request\n3. **RESPOND** helpfully, following any specific guidance in the skill\n4. **STAY WITHIN SCOPE** - Focus on what this skill is designed to do\n\n---\n\n## Skill Instructions\n\n") ++
    skill.content ++
    (String.data "\n\n---\n\n**Remember:** These instructions are your guide. Use them to provide the best possible response to the user\x27s request.")

/-- Model of the `use-skills` tool entry point.  Inputs: the routing
model preference as returned by `getRoutingModel`, the enabled skill
records, the request (used only to build the prompt, which feeds the
external oracle), and the outcome of the single external call.
Output: the returned text paired with the number of external
classification calls performed (attempted), so call-freedom is
observable. -/
def toolRun (routingModel : Option JStr) (enabledSkills : List ClaudeSkill)
    (request : JStr) (aiResult : Except Unit JStr) : JStr × Nat :=
  match routingModel with
  | none => (setupGuidance, 0)
  | some _ =>
    match enabledSkills, request with
    | [], _ => (noSkillsEnabledMessage, 0)
    | s :: ss, _ =>
      match selectSkillWithAI aiResult with
      | none => (formatNoMatchMessage (s :: ss), 1)
      | some nm =>
        match (s :: ss).find? (skillMatches nm) with
        | some sk => (formatSkillResponse sk, 1)
        | none => (formatNoMatchMessage (s :: ss), 1)

/-! ### Derived shapes and fixtures -/

/-- Metadata field lookup through a parse result. -/
def metaGet (p? : Option Parsed) (k : JStr) : Option YVal :=
  p?.bind (fun p => p.metadata.bind (fun o => objGet o k))

/-- The metadata object obtained by parsing a document written by
`createSkillDoc`: the emitted keys in order, with the camelised
`allowedTools` alias appended by the key-normalisation loop. -/
def skillObj (n d : JStr) (tools : Option (List JStr)) (mdl : Option JStr) : YObj :=
  let te : Option (List JStr) :=
    match tools with
    | some ts => if ts.isEmpty then none else some ts
    | none => none
  let me : Option JStr :=
    match mdl with
    | some m => if m.isEmpty then none else some m
    | none => none
  [(js "name", YVal.str n), (js "description", YVal.str d)] ++
    (match te with | some ts => [(js "allowed-tools", YVal.arr ts)] | none => []) ++
    (match me with | some m => [(js "model", YVal.str m)] | none => []) ++
    (match te with | some ts => [(js "allowedTools", YVal.arr ts)] | none => [])

/-- The metadata keys a rewritten document can ever contain. -/
def wellKnownKeys : List JStr :=
  [js "name", js "description", js "allowed-tools", js "model", js "allowedTools"]

/-- Fixture: a stored document with an extra metadata field. -/
def c2Doc : JStr := js "---\nname: x\ndescription: d\nfoo: bar\n---\n\nbody"

/-- Fixture: the metadata record discovered for `c2Doc`. -/
def c2Obj : YObj :=
  match parseSkillMarkdown c2Doc with
  | some ⟨some o, _⟩ => o
  | _ => []

/-- Fixture: a root where directory `a` declares metadata name `b`,
and directory `b` also exists. -/
def c3Fs : FS :=
  [some (js "/r",
    [.dir ⟨js "a", some (js "---\nname: b\ndescription: d\n---\nbody"), false, []⟩,
     .dir ⟨js "b", some (js "---\nname: c\ndescription: d\n---\nbody"), false, []⟩])]

/-- Fixture: a discovered skill record used to exercise the router. -/
def c7Skill : ClaudeSkill :=
  ⟨js "summarizer", js "/r/summarizer",
    [(js "name", YVal.str (js "summarizer")),
     (js "description", YVal.str (js "Summarizes text"))],
    js "Summarize the input.", [], js "/r/summarizer/SKILL.md"⟩

/-- Fixture: a valid skill directory `a`. -/
def c4DirA : SkillDir :=
  ⟨js "a", some (js "---\nname: a\ndescription: desc\n---\n\nbody a"), false, []⟩

/-- Fixture: a directory whose document has an empty metadata block. -/
def c4DirB : SkillDir := ⟨js "b", some (js "------"), false, []⟩

/-- Fixture: a storage root holding both directories. -/
def c4FsBoth : FS := [some (js "/r", [.dir c4DirA, .dir c4DirB])]

/-- Fixture: the same root without the invalid directory. -/
def c4FsValid : FS := [some (js "/r", [.dir c4DirA])]

/-! ### Theorems -/

set_option maxRecDepth 8000

section Lemmas

theorem hasTriple_cons (c : Char) (s : JStr) :
    hasTriple (c :: s) = (p3.isPrefixOf (c :: s) || hasTriple s) := rfl

theorem hasTriple_cons_of_ne {c : Char} {s : JStr} (hc : c ≠ '-')
    (hs : hasTriple s = false) : hasTriple (c :: s) = false := by
  rw [hasTriple_cons, hs, Bool.or_false]
  have hc' : ¬ ('-' = c) := fun h => hc h.symm
  cases s <;> simp [p3, List.isPrefixOf, hc']

theorem prefix_p3_shift (x : Char) (a u v : JStr)
    (h : p3.isPrefixOf (x :: (a ++ ('-' :: '-' :: u))) = true) :
    p3.isPrefixOf (x :: (a ++ ('-' :: '-' :: v))) = true := by
  match a with
  | [] =>
    simp [p3, List.isPrefixOf] at h ⊢
    tauto
  | [c2] =>
    simp [p3, List.isPrefixOf] at h ⊢
    tauto
  | c2 :: c3 :: r =>
    simp [p3, List.isPrefixOf] at h ⊢
    tauto

theorem noTriple_append_right {a b : JStr} (ha : hasTriple a = false)
    (hb : hasTriple b = false) (h : b.head? ≠ some '-') :
    hasTriple (a ++ b) = false := by
  induction a with
  | nil => simpa using hb
  | cons c a' ih =>
    rw [hasTriple_cons] at ha
    have ha1 : p3.isPrefixOf (c :: a') = false := by
      cases hx : p3.isPrefixOf (c :: a') <;> simp_all
    have ha2 : hasTriple a' = false := by
      cases hx : hasTriple a' <;> simp_all
    rw [List.cons_append, hasTriple_cons, ih ha2, Bool.or_false]
    cases hx : p3.isPrefixOf (c :: (a' ++ b))
    · rfl
    · exfalso
      match a', b with
      | [], [] => simp [p3, List.isPrefixOf] at hx
      | [], d :: b' =>
        simp [p3, List.isPrefixOf] at hx
        simp [List.head?] at h
        exact h hx.2.1.symm
      | [c2], [] => simp [p3, List.isPrefixOf] at hx
      | [c2], d :: b' =>
        simp [p3, List.isPrefixOf] at hx
        simp [List.head?] at h
        exact h hx.2.2.symm
      | c2 :: c3 :: r, _ =>
        simp [p3, List.isPrefixOf] at hx ha1
        tauto

theorem noTriple_append_left {a b : JStr} (ha : hasTriple a = false)
    (hb : hasTriple b = false) (h : a.getLast? ≠ some '-') :
    hasTriple (a ++ b) = false := by
  induction a with
  | nil => simpa using hb
  | cons c a' ih =>
    rw [hasTriple_cons] at ha
    have ha1 : p3.isPrefixOf (c :: a') = false := by
      cases hx : p3.isPrefixOf (c :: a') <;> simp_all
    have ha2 : hasTriple a' = false := by
      cases hx : hasTriple a' <;> simp_all
    match a' with
    | [] =>
      have hc : c ≠ '-' := by simp_all
      exact hasTriple_cons_of_ne hc hb
    | c2 :: a'' =>
      have h' : (c2 :: a'').getLast? ≠ some '-' := by
        rwa [List.getLast?_cons_cons] at h
      rw [List.cons_append, hasTriple_cons, ih ha2 h', Bool.or_false]
      cases hx : p3.isPrefixOf (c :: (c2 :: a'' ++ b))
      · rfl
      · exfalso
        match a'', b with
        | [], [] => simp [p3, List.isPrefixOf] at hx
        | [], d :: b' =>
          simp [p3, List.isPrefixOf] at hx
          simp [List.getLast?] at h'
          exact h' hx.2.1.symm
        | c3 :: r, _ =>
          simp [p3, List.isPrefixOf] at hx ha1
          tauto

theorem all_mem_eq_true {p : Char → Bool} {s : JStr} (h : s.all p = true) {c : Char}
    (hc : c ∈ s) : p c = true :=
  List.all_eq_true.mp h c hc

theorem not_mem_of_all {p : Char → Bool} {s : JStr} (h : s.all p = true) {c : Char}
    (hc : p c = false) : c ∉ s := by
  intro m
  rw [all_mem_eq_true h m] at hc
  exact Bool.true_eq_false.mp hc

theorem alpha_ne {c : Char} (h : c.isAlpha = true) (d : Char) (hd : d.isAlpha = false) :
    c ≠ d := by
  intro e
  subst e
  rw [h] at hd
  exact Bool.true_eq_false.mp hd

theorem jsIsWs_false_of_alpha {c : Char} (h : c.isAlpha = true) : jsIsWs c = false := by
  cases hc : jsIsWs c with
  | false => rfl
  | true =>
    exfalso
    simp [jsIsWs] at hc
    rcases hc with ((h' | h') | h') | h' <;> (subst h'; exact absurd h (by decide))

theorem jsIsWs_false_of_scalar {c : Char} (h1 : scalarChar c = true) (h2 : c ≠ ' ') :
    jsIsWs c = false := by
  cases hc : jsIsWs c with
  | false => rfl
  | true =>
    exfalso
    simp [jsIsWs] at hc
    rcases hc with ((h' | h') | h') | h'
    · exact h2 h'
    · subst h'; exact absurd h1 (by decide)
    · subst h'; exact absurd h1 (by decide)
    · subst h'; exact absurd h1 (by decide)

theorem trimLeft_ws_cons {c : Char} {s : JStr} (h : jsIsWs c = true) :
    trimLeft (c :: s) = trimLeft s := by
  simp [trimLeft, List.dropWhile_cons, h]

theorem trimLeft_of_head (s : JStr) (h : ∀ c, s.head? = some c → jsIsWs c = false) :
    trimLeft s = s := by
  cases s with
  | nil => rfl
  | cons c r => simp [trimLeft, List.dropWhile_cons, h c rfl]

theorem trimLeft_ws_append {w s : JStr} (h : w.all jsIsWs = true) :
    trimLeft (w ++ s) = trimLeft s := by
  simp [trimLeft, @List.dropWhile_append_of_pos Char jsIsWs w s (fun a ha => all_mem_eq_true h ha)]

theorem trimRight_concat_ws {c : Char} {s : JStr} (h : jsIsWs c = true) :
    trimRight (s ++ [c]) = trimRight s := by
  simp [trimRight, List.dropWhile_cons, h]

theorem trimRight_ws_append {w s : JStr} (h : w.all jsIsWs = true) :
    trimRight (s ++ w) = trimRight s := by
  have hrev : w.reverse.all jsIsWs = true := by
    rw [List.all_eq_true] at h ⊢
    intro c hc
    exact h c (List.mem_reverse.mp hc)
  simp [trimRight, List.reverse_append,
    @List.dropWhile_append_of_pos Char jsIsWs w.reverse s.reverse
      (fun a ha => all_mem_eq_true hrev ha)]

theorem trimRight_of_last {s : JStr} (h : ∀ c, s.getLast? = some c → jsIsWs c = false) :
    trimRight s = s := by
  unfold trimRight
  cases hs : s.reverse with
  | nil =>
    have : s = [] := by simpa using congrArg List.reverse hs
    simp [this]
  | cons c r =>
    have hlast : s.getLast? = some c := by
      rw [← List.head?_reverse, hs]
      rfl
    rw [List.dropWhile_cons, h c hlast]
    simp only [Bool.false_eq_true, if_false]
    rw [← hs, List.reverse_reverse]

theorem jsTrim_double_newline (b : JStr) : jsTrim ('\n' :: '\n' :: b) = jsTrim b := by
  unfold jsTrim
  rw [trimLeft_ws_cons (by decide), trimLeft_ws_cons (by decide)]

theorem jsTrim_wrapped {x : JStr}
    (hh : ∀ c, x.head? = some c → jsIsWs c = false)
    (hl : ∀ c, x.getLast? = some c → jsIsWs c = false) :
    jsTrim ('\n' :: (x ++ ['\n'])) = x := by
  cases x with
  | nil => decide
  | cons c x' =>
    unfold jsTrim
    rw [trimLeft_ws_cons (by decide)]
    rw [trimLeft_of_head ((c :: x') ++ ['\n']) ?hd]
    case hd =>
      intro e he
      simp only [List.cons_append, List.head?_cons, Option.some.injEq] at he
      exact he ▸ hh c rfl
    rw [trimRight_concat_ws (by decide), trimRight_of_last hl]

theorem jsTrim_sandwich {w1 w2 x : JStr} (h1 : w1.all jsIsWs = true)
    (h2 : w2.all jsIsWs = true)
    (hh : ∀ c, x.head? = some c → jsIsWs c = false)
    (hl : ∀ c, x.getLast? = some c → jsIsWs c = false) :
    jsTrim (w1 ++ (x ++ w2)) = x := by
  unfold jsTrim
  rw [trimLeft_ws_append h1]
  cases x with
  | nil =>
    simp only [List.nil_append]
    rw [show trimLeft w2 = [] from ?_]
    · rfl
    · simp [trimLeft, List.dropWhile_eq_nil_iff]
      intro c hc
      exact all_mem_eq_true h2 hc
  | cons c x' =>
    rw [trimLeft_of_head ((c :: x') ++ w2) ?hd2]
    case hd2 =>
      intro e he
      simp only [List.cons_append, List.head?_cons, Option.some.injEq] at he
      exact he ▸ hh c rfl
    rw [trimRight_ws_append h2, trimRight_of_last hl]

theorem splitLines_no_newline {a : JStr} (h : '\n' ∉ a) : splitLines a = [a] := by
  induction a with
  | nil => rfl
  | cons c a' ih =>
    have hc : ¬ (c = '\n') := fun e => h (e ▸ List.mem_cons_self c a')
    have h' : '\n' ∉ a' := fun m => h (List.mem_cons_of_mem c m)
    simp [splitLines, hc, ih h']

theorem splitLines_append {a b : JStr} (h : '\n' ∉ a) :
    splitLines (a ++ '\n' :: b) = a :: splitLines b := by
  induction a with
  | nil => simp [splitLines]
  | cons c a' ih =>
    have hc : ¬ (c = '\n') := fun e => h (e ▸ List.mem_cons_self c a')
    have h' : '\n' ∉ a' := fun m => h (List.mem_cons_of_mem c m)
    simp [splitLines, hc, ih h']

theorem splitAtColon_append {k r : JStr} (h : ':' ∉ k) :
    splitAtColon (k ++ ':' :: r) = some (k, r) := by
  induction k with
  | nil => simp [splitAtColon]
  | cons c k' ih =>
    have hc : ¬ (c = ':') := fun e => h (e ▸ List.mem_cons_self c k')
    have h' : ':' ∉ k' := fun m => h (List.mem_cons_of_mem c m)
    simp [splitAtColon, hc, ih h']

theorem scanString_append {t r : JStr} (h1 : '"' ∉ t) (h2 : '\\' ∉ t) :
    scanString (t ++ '"' :: r) = some (t, r) := by
  induction t with
  | nil => simp [scanString]
  | cons c t' ih =>
    have hc1 : ¬ (c = '"') := fun e => h1 (e ▸ List.mem_cons_self c t')
    have hc2 : ¬ (c = '\\') := fun e => h2 (e ▸ List.mem_cons_self c t')
    have h1' : '"' ∉ t' := fun m => h1 (List.mem_cons_of_mem c m)
    have h2' : '\\' ∉ t' := fun m => h2 (List.mem_cons_of_mem c m)
    simp [scanString, hc1, hc2, ih h1' h2']

theorem findSub_exact (a c : JStr) (i : Nat)
    (h : hasTriple (a ++ ['-', '-']) = false) :
    findSubFrom p3 (a ++ (p3 ++ c)) i = some (i + a.length) := by
  induction a generalizing i with
  | nil => simp [findSubFrom, p3, List.isPrefixOf]
  | cons x a' ih =>
    rw [List.cons_append, hasTriple_cons] at h
    have h1 : p3.isPrefixOf (x :: (a' ++ ['-', '-'])) = false := by
      cases hx : p3.isPrefixOf (x :: (a' ++ ['-', '-'])) <;> simp_all
    have h2 : hasTriple (a' ++ ['-', '-']) = false := by
      cases hx : hasTriple (a' ++ ['-', '-']) <;> simp_all
    rw [List.cons_append, findSubFrom]
    have hpre : p3.isPrefixOf (x :: (a' ++ (p3 ++ c))) = false := by
      cases hx : p3.isPrefixOf (x :: (a' ++ (p3 ++ c)))
      · rfl
      · exfalso
        have : p3.isPrefixOf (x :: (a' ++ ('-' :: '-' :: []))) = true := by
          have hsh := fun hyp => prefix_p3_shift x a' ('-' :: c) ([] : JStr) hyp
          simp only [p3] at hx ⊢
          exact hsh hx
        rw [this] at h1
        exact Bool.true_eq_false.mp h1
    rw [hpre]
    simp only [Bool.false_eq_true, if_false]
    rw [ih (i + 1) h2]
    congr 1
    simp [List.length_cons]
    omega

theorem safePlain_parts {s : JStr} (h : safePlain s = true) :
    s ≠ [] ∧ s.all scalarChar = true ∧ s.getLast? ≠ some ' ' := by
  unfold safePlain at h
  rw [Bool.and_eq_true, Bool.and_eq_true, Bool.and_eq_true, Bool.and_eq_true] at h
  refine ⟨?_, h.1.1.1.2, ?_⟩
  · intro e
    subst e
    exact absurd h.1.1.1.1 (by decide)
  · intro e
    rw [e] at h
    exact absurd h.1.2 (by decide)

theorem safePlain_head_alpha {c : Char} {r : JStr} (h : safePlain (c :: r) = true) :
    c.isAlpha = true := by
  unfold safePlain at h
  rw [Bool.and_eq_true, Bool.and_eq_true, Bool.and_eq_true, Bool.and_eq_true] at h
  exact h.1.1.2

theorem safeValue_parts {s : JStr} (h : safeValue s = true) :
    safePlain s = true ∧ hasTriple s = false := by
  unfold safeValue at h
  rw [Bool.and_eq_true] at h
  exact ⟨h.1, by cases hx : hasTriple s <;> simp_all⟩

theorem safeTool_parts {s : JStr} (h : safeTool s = true) :
    s.all scalarChar = true ∧ hasTriple s = false := by
  unfold safeTool at h
  rw [Bool.and_eq_true] at h
  exact ⟨h.1, by cases hx : hasTriple s <;> simp_all⟩

theorem goodKey_no_colon {k : JStr} (h : goodKey k = true) : ':' ∉ k := by
  unfold goodKey at h
  rw [Bool.and_eq_true, Bool.and_eq_true] at h
  exact not_mem_of_all h.1.2 (by decide)

theorem parseValue_plain {v : JStr} (hv : safePlain v = true) :
    parseValue v = some (YVal.str v) := by
  cases v with
  | nil => exact absurd hv (by decide)
  | cons c r =>
    have halpha : c.isAlpha = true := safePlain_head_alpha hv
    obtain ⟨hne, hall, hlast⟩ := safePlain_parts hv
    have htrim : jsTrim (c :: r) = c :: r := by
      unfold jsTrim
      rw [trimLeft_of_head _ ?hd, trimRight_of_last ?tl]
      case hd =>
        intro e he
        simp only [List.head?_cons, Option.some.injEq] at he
        exact he ▸ jsIsWs_false_of_alpha halpha
      case tl =>
        intro e he
        have hmem : e ∈ c :: r := List.mem_of_mem_getLast? (Option.mem_def.mpr he)
        exact jsIsWs_false_of_scalar (all_mem_eq_true hall hmem) (fun e2 => hlast (e2 ▸ he))
    unfold parseValue
    rw [htrim]
    have hne2 : ¬ (c = '[') := fun e => absurd (e ▸ halpha) (by decide)
    simp only [hne2, if_false, hv, if_true]

theorem jsonItems_ne_nil (ts : List JStr) : jsonItems ts ≠ [] := by
  cases ts with
  | nil => simp [jsonItems]
  | cons t ts' => cases ts' <;> simp [jsonItems]

theorem jsonItems_getLast (ts : List JStr) : (jsonItems ts).getLast? = some ']' := by
  induction ts with
  | nil => rfl
  | cons t ts' ih =>
    cases ts' with
    | nil =>
      rw [show jsonItems [t] = ('"' :: t ++ ['"']) ++ [']'] by simp [jsonItems]]
      exact List.getLast?_concat _
    | cons t2 ts'' =>
      rw [show jsonItems (t :: t2 :: ts'') =
        ('"' :: t ++ ['"', ',']) ++ jsonItems (t2 :: ts'') by simp [jsonItems]]
      rw [List.getLast?_append_of_ne_nil _ (jsonItems_ne_nil _)]
      exact ih

theorem mem_jsonItems {c : Char} {ts : List JStr} (h : c ∈ jsonItems ts) :
    c = '"' ∨ c = ',' ∨ c = ']' ∨ ∃ t ∈ ts, c ∈ t := by
  induction ts with
  | nil =>
    simp [jsonItems] at h
    tauto
  | cons t ts' ih =>
    cases ts' with
    | nil =>
      simp [jsonItems] at h
      rcases h with h | h | h | h <;> tauto
    | cons t2 ts'' =>
      simp [jsonItems] at h
      rcases h with h | h | h | h
      · tauto
      · right; right; right; exact ⟨t, by simp, h⟩
      · tauto
      · rcases h with h | h
        · tauto
        · rcases ih h with h' | h' | h' | ⟨t', ht', hc⟩
          · tauto
          · tauto
          · tauto
          · right; right; right; exact ⟨t', List.mem_cons_of_mem _ ht', hc⟩

theorem jsonItems_no_newline {ts : List JStr}
    (h : ∀ t ∈ ts, t.all scalarChar = true) : '\n' ∉ jsonItems ts := by
  intro m
  rcases mem_jsonItems m with h' | h' | h' | ⟨t, ht, hc⟩
  · exact absurd h' (by decide)
  · exact absurd h' (by decide)
  · exact absurd h' (by decide)
  · exact not_mem_of_all (h t ht) (by decide) hc

theorem jsonArr_no_newline {ts : List JStr}
    (h : ∀ t ∈ ts, t.all scalarChar = true) : '\n' ∉ jsonArr ts := by
  intro m
  unfold jsonArr at m
  rcases List.mem_cons.mp m with h' | h'
  · exact absurd h' (by decide)
  · exact jsonItems_no_newline h h'

theorem jsonItems_noTriple {ts : List JStr} (h : ∀ t ∈ ts, hasTriple t = false) :
    hasTriple (jsonItems ts) = false := by
  induction ts with
  | nil => decide
  | cons t ts' ih =>
    cases ts' with
    | nil =>
      rw [show jsonItems [t] = '"' :: (t ++ ('"' :: [']'])) by simp [jsonItems]]
      exact hasTriple_cons_of_ne (by decide)
        (noTriple_append_right (h t (by simp)) (by decide) (by decide))
    | cons t2 ts'' =>
      rw [show jsonItems (t :: t2 :: ts'') =
        '"' :: (t ++ ('"' :: ',' :: jsonItems (t2 :: ts''))) by simp [jsonItems]]
      refine hasTriple_cons_of_ne (by decide) (noTriple_append_right (h t (by simp)) ?_ (by simp))
      exact hasTriple_cons_of_ne (by decide)
        (hasTriple_cons_of_ne (by decide)
          (ih (fun t' ht' => h t' (List.mem_cons_of_mem _ ht'))))

theorem jsonArr_noTriple {ts : List JStr} (h : ∀ t ∈ ts, hasTriple t = false) :
    hasTriple (jsonArr ts) = false :=
  hasTriple_cons_of_ne (by decide) (jsonItems_noTriple h)

theorem parseItemsAux_jsonItems {ts : List JStr} (hne : ts ≠ [])
    (h : ∀ t ∈ ts, t.all scalarChar = true) :
    ∀ fuel, (jsonItems ts).length ≤ fuel → parseItemsAux fuel (jsonItems ts) = some ts := by
  induction ts with
  | nil => exact absurd rfl hne
  | cons t ts' ih =>
    intro fuel hfuel
    have hq : '"' ∉ t := not_mem_of_all (h t (by simp)) (by decide)
    have hbs : '\\' ∉ t := not_mem_of_all (h t (by simp)) (by decide)
    cases ts' with
    | nil =>
      have hlen : 1 ≤ fuel := by
        have := hfuel
        simp [jsonItems] at this
        omega
      obtain ⟨f, rfl⟩ : ∃ f, fuel = f + 1 := ⟨fuel - 1, by omega⟩
      rw [show jsonItems [t] = '"' :: (t ++ ('"' :: [']'])) by simp [jsonItems]]
      simp [parseItemsAux, scanString_append hq hbs]
    | cons t2 ts'' =>
      have hlen : 1 ≤ fuel := by
        have := hfuel
        simp [jsonItems] at this
        omega
      obtain ⟨f, rfl⟩ : ∃ f, fuel = f + 1 := ⟨fuel - 1, by omega⟩
      rw [show jsonItems (t :: t2 :: ts'') =
        '"' :: (t ++ ('"' :: ',' :: jsonItems (t2 :: ts''))) by simp [jsonItems]]
      have hrec := ih (by simp) (fun t' ht' => h t' (List.mem_cons_of_mem _ ht')) f
        (by
          have := hfuel
          simp [jsonItems, List.length_append] at this ⊢
          omega)
      simp [parseItemsAux, scanString_append hq hbs, hrec]

theorem parseFlowArr_jsonArr {ts : List JStr} (h : ∀ t ∈ ts, t.all scalarChar = true) :
    parseFlowArr (jsonArr ts) = some ts := by
  cases ts with
  | nil => decide
  | cons t ts' =>
    have hne : jsonItems (t :: ts') ≠ [']'] := by
      cases ts' <;> simp [jsonItems]
    show parseFlowArr ('[' :: jsonItems (t :: ts')) = some (t :: ts')
    unfold parseFlowArr
    simp only [if_neg hne, if_pos rfl]
    exact parseItemsAux_jsonItems (by simp) h _ (le_refl _)

theorem parseValue_jsonArr {ts : List JStr} (h : ∀ t ∈ ts, t.all scalarChar = true) :
    parseValue (jsonArr ts) = some (YVal.arr ts) := by
  have htrim : jsTrim (jsonArr ts) = jsonArr ts := by
    unfold jsTrim
    rw [trimLeft_of_head _ ?hd, trimRight_of_last ?tl]
    case hd =>
      intro e he
      simp [jsonArr, List.head?] at he
      exact he ▸ (by decide)
    case tl =>
      intro e he
      rw [show jsonArr ts = ['['] ++ jsonItems ts from rfl,
        List.getLast?_append_of_ne_nil _ (jsonItems_ne_nil ts), jsonItems_getLast ts] at he
      cases he
      decide
  have harr := congrArg (Option.map YVal.arr) (parseFlowArr_jsonArr h)
  unfold parseValue
  rw [htrim]
  rw [show jsonArr ts = '[' :: jsonItems ts from rfl] at harr ⊢
  simpa using harr

theorem parseLine_keyed {k v : JStr} (hk : goodKey k = true) :
    parseLine (k ++ ':' :: ' ' :: v) = (parseValue v).map (fun w => (k, w)) := by
  simp [parseLine, splitAtColon_append (goodKey_no_colon hk), hk]

theorem parse_decomp (pre post : JStr) (h : hasTriple (pre ++ ['-', '-']) = false) :
    parseSkillMarkdown (p3 ++ (pre ++ (p3 ++ post))) =
      match yamlParseDoc (jsTrim pre) with
      | .ok (some obj) => some ⟨some (camelize obj), jsTrim post⟩
      | .ok none => some ⟨none, jsTrim post⟩
      | .error _ => none := by
  have hpref : p3.isPrefixOf (p3 ++ (pre ++ (p3 ++ post))) = true := by
    simp [List.isPrefixOf_iff_prefix]
  have hdrop3 : (p3 ++ (pre ++ (p3 ++ post))).drop 3 = pre ++ (p3 ++ post) := by
    simp [p3]
  have hidx : indexOfFrom p3 (p3 ++ (pre ++ (p3 ++ post))) 3 = some (3 + pre.length) := by
    unfold indexOfFrom
    rw [hdrop3]
    exact findSub_exact pre post 3 h
  have htake : ((p3 ++ (pre ++ (p3 ++ post))).take (3 + pre.length)).drop 3 = pre := by
    rw [show p3 ++ (pre ++ (p3 ++ post)) = (p3 ++ pre) ++ (p3 ++ post) by simp]
    rw [show 3 + pre.length = (p3 ++ pre).length + 0 by
      simp only [List.length_append, p3, List.length_cons, List.length_nil]
      try omega]
    rw [List.take_append]
    simp [p3]
  have hdropE : (p3 ++ (pre ++ (p3 ++ post))).drop (3 + pre.length + 3) = post := by
    rw [show p3 ++ (pre ++ (p3 ++ post)) = ((p3 ++ pre) ++ p3) ++ post by simp]
    rw [show 3 + pre.length + 3 = ((p3 ++ pre) ++ p3).length + 0 by
      simp only [List.length_append, p3, List.length_cons, List.length_nil]
      try omega]
    rw [List.drop_append]
    simp
  unfold parseSkillMarkdown
  rw [hpref, hidx]
  simp only [if_true]
  rw [htake, hdropE]

theorem parse_fm_doc (mid b : JStr)
    (htrip : hasTriple mid = false)
    (hh : ∀ c, mid.head? = some c → jsIsWs c = false)
    (hl : ∀ c, mid.getLast? = some c → jsIsWs c = false) :
    parseSkillMarkdown (p3 ++ (('\n' :: (mid ++ ['\n'])) ++ (p3 ++ ('\n' :: '\n' :: b)))) =
      match yamlParseDoc mid with
      | .ok (some obj) => some ⟨some (camelize obj), jsTrim b⟩
      | .ok none => some ⟨none, jsTrim b⟩
      | .error _ => none := by
  have hpre_triple : hasTriple (('\n' :: (mid ++ ['\n'])) ++ ['-', '-']) = false := by
    have hx1 : hasTriple ('\n' :: (mid ++ ['\n'])) = false :=
      hasTriple_cons_of_ne (by decide) (noTriple_append_right htrip (by decide) (by decide))
    have hx2 : ('\n' :: (mid ++ ['\n'])).getLast? ≠ some '-' := by
      rw [show ('\n' :: (mid ++ ['\n'])) = ('\n' :: mid) ++ ['\n'] from by simp]
      rw [List.getLast?_concat]
      decide
    exact noTriple_append_left hx1 (by decide) hx2
  have htrimpre : jsTrim ('\n' :: (mid ++ ['\n'])) = mid :=
    jsTrim_wrapped hh hl
  rw [parse_decomp _ _ hpre_triple, htrimpre, jsTrim_double_newline]

theorem no_nl_append {a v : JStr} (ha : '\n' ∉ a) (hv : '\n' ∉ v) : '\n' ∉ a ++ v := by
  intro hm
  rcases List.mem_append.mp hm with h | h
  · exact ha h
  · exact hv h

theorem scalar_no_nl {v : JStr} (hv : v.all scalarChar = true) : '\n' ∉ v :=
  not_mem_of_all hv (by decide)

theorem safePlain_last_not_ws {s : JStr} (h : safePlain s = true) :
    ∀ c, s.getLast? = some c → jsIsWs c = false := by
  intro c hc
  obtain ⟨-, hall, hlast⟩ := safePlain_parts h
  exact jsIsWs_false_of_scalar
    (all_mem_eq_true hall (List.mem_of_mem_getLast? (Option.mem_def.mpr hc)))
    (fun e => hlast (e ▸ hc))

theorem safePlain_head_ne_hyphen {s : JStr} (h : safePlain s = true) :
    s.head? ≠ some '-' := by
  cases s with
  | nil => simp
  | cons c r =>
    have halpha := safePlain_head_alpha h
    intro e
    simp only [List.head?_cons, Option.some.injEq] at e
    subst e
    exact absurd halpha (by decide)

theorem jsonArr_getLast (ts : List JStr) : (jsonArr ts).getLast? = some ']' := by
  rw [show jsonArr ts = ['['] ++ jsonItems ts from rfl,
    List.getLast?_append_of_ne_nil _ (jsonItems_ne_nil ts), jsonItems_getLast ts]

theorem jsonArr_head (ts : List JStr) : (jsonArr ts).head? = some '[' := rfl

theorem yaml_two_lines {n d : JStr} (hn : safePlain n = true) (hd : safePlain d = true) :
    yamlParseDoc ((js "name: " ++ n) ++ ('\n' :: (js "description: " ++ d))) =
      .ok (some [(js "name", YVal.str n), (js "description", YVal.str d)]) := by
  have hnl1 : '\n' ∉ js "name: " ++ n :=
    no_nl_append (by decide) (scalar_no_nl (safePlain_parts hn).2.1)
  have hnl2 : '\n' ∉ js "description: " ++ d :=
    no_nl_append (by decide) (scalar_no_nl (safePlain_parts hd).2.1)
  have hws : (((js "name: " ++ n) ++ ('\n' :: (js "description: " ++ d))).all jsIsWs) = false := by
    rw [show (js "name: " ++ n) ++ ('\n' :: (js "description: " ++ d)) =
      'n' :: ((js "ame: " ++ n) ++ ('\n' :: (js "description: " ++ d))) from rfl]
    simp [List.all_cons, jsIsWs]
  have pl1 : parseLine (js "name: " ++ n) = some (js "name", YVal.str n) := by
    rw [show js "name: " ++ n = js "name" ++ (':' :: ' ' :: n) from rfl]
    rw [parseLine_keyed (by decide), parseValue_plain hn]
    rfl
  have pl2 : parseLine (js "description: " ++ d) = some (js "description", YVal.str d) := by
    rw [show js "description: " ++ d = js "description" ++ (':' :: ' ' :: d) from rfl]
    rw [parseLine_keyed (by decide), parseValue_plain hd]
    rfl
  unfold yamlParseDoc
  rw [hws]
  simp only [Bool.false_eq_true, if_false]
  rw [splitLines_append hnl1, splitLines_no_newline hnl2]
  simp only [List.mapM_cons, List.mapM_nil, pl1, pl2]
  simp +decide

theorem yaml_three_lines_tools {n d : JStr} {ts : List JStr}
    (hn : safePlain n = true) (hd : safePlain d = true)
    (ht : ∀ t ∈ ts, t.all scalarChar = true) :
    yamlParseDoc ((js "name: " ++ n) ++ ('\n' :: ((js "description: " ++ d) ++
        ('\n' :: (js "allowed-tools: " ++ jsonArr ts))))) =
      .ok (some [(js "name", YVal.str n), (js "description", YVal.str d),
        (js "allowed-tools", YVal.arr ts)]) := by
  have hnl1 : '\n' ∉ js "name: " ++ n :=
    no_nl_append (by decide) (scalar_no_nl (safePlain_parts hn).2.1)
  have hnl2 : '\n' ∉ js "description: " ++ d :=
    no_nl_append (by decide) (scalar_no_nl (safePlain_parts hd).2.1)
  have hnl3 : '\n' ∉ js "allowed-tools: " ++ jsonArr ts :=
    no_nl_append (by decide) (jsonArr_no_newline ht)
  have hws : (((js "name: " ++ n) ++ ('\n' :: ((js "description: " ++ d) ++
      ('\n' :: (js "allowed-tools: " ++ jsonArr ts))))).all jsIsWs) = false := by
    rw [show (js "name: " ++ n) ++ ('\n' :: ((js "description: " ++ d) ++
      ('\n' :: (js "allowed-tools: " ++ jsonArr ts)))) =
      'n' :: ((js "ame: " ++ n) ++ ('\n' :: ((js "description: " ++ d) ++
        ('\n' :: (js "allowed-tools: " ++ jsonArr ts))))) from rfl]
    simp [List.all_cons, jsIsWs]
  have pl1 : parseLine (js "name: " ++ n) = some (js "name", YVal.str n) := by
    rw [show js "name: " ++ n = js "name" ++ (':' :: ' ' :: n) from rfl]
    rw [parseLine_keyed (by decide), parseValue_plain hn]
    rfl
  have pl2 : parseLine (js "description: " ++ d) = some (js "description", YVal.str d) := by
    rw [show js "description: " ++ d = js "description" ++ (':' :: ' ' :: d) from rfl]
    rw [parseLine_keyed (by decide), parseValue_plain hd]
    rfl
  have pl3 : parseLine (js "allowed-tools: " ++ jsonArr ts) =
      some (js "allowed-tools", YVal.arr ts) := by
    rw [show js "allowed-tools: " ++ jsonArr ts =
      js "allowed-tools" ++ (':' :: ' ' :: jsonArr ts) from rfl]
    rw [parseLine_keyed (by decide), parseValue_jsonArr ht]
    rfl
  unfold yamlParseDoc
  rw [hws]
  simp only [Bool.false_eq_true, if_false]
  rw [splitLines_append hnl1, splitLines_append hnl2, splitLines_no_newline hnl3]
  simp only [List.mapM_cons, List.mapM_nil, pl1, pl2, pl3]
  simp +decide

theorem yaml_three_lines_model {n d m : JStr}
    (hn : safePlain n = true) (hd : safePlain d = true) (hm : safePlain m = true) :
    yamlParseDoc ((js "name: " ++ n) ++ ('\n' :: ((js "description: " ++ d) ++
        ('\n' :: (js "model: " ++ m))))) =
      .ok (some [(js "name", YVal.str n), (js "description", YVal.str d),
        (js "model", YVal.str m)]) := by
  have hnl1 : '\n' ∉ js "name: " ++ n :=
    no_nl_append (by decide) (scalar_no_nl (safePlain_parts hn).2.1)
  have hnl2 : '\n' ∉ js "description: " ++ d :=
    no_nl_append (by decide) (scalar_no_nl (safePlain_parts hd).2.1)
  have hnl3 : '\n' ∉ js "model: " ++ m :=
    no_nl_append (by decide) (scalar_no_nl (safePlain_parts hm).2.1)
  have hws : (((js "name: " ++ n) ++ ('\n' :: ((js "description: " ++ d) ++
      ('\n' :: (js "model: " ++ m))))).all jsIsWs) = false := by
    rw [show (js "name: " ++ n) ++ ('\n' :: ((js "description: " ++ d) ++
      ('\n' :: (js "model: " ++ m)))) =
      'n' :: ((js "ame: " ++ n) ++ ('\n' :: ((js "description: " ++ d) ++
        ('\n' :: (js "model: " ++ m))))) from rfl]
    simp [List.all_cons, jsIsWs]
  have pl1 : parseLine (js "name: " ++ n) = some (js "name", YVal.str n) := by
    rw [show js "name: " ++ n = js "name" ++ (':' :: ' ' :: n) from rfl]
    rw [parseLine_keyed (by decide), parseValue_plain hn]
    rfl
  have pl2 : parseLine (js "description: " ++ d) = some (js "description", YVal.str d) := by
    rw [show js "description: " ++ d = js "description" ++ (':' :: ' ' :: d) from rfl]
    rw [parseLine_keyed (by decide), parseValue_plain hd]
    rfl
  have pl4 : parseLine (js "model: " ++ m) = some (js "model", YVal.str m) := by
    rw [show js "model: " ++ m = js "model" ++ (':' :: ' ' :: m) from rfl]
    rw [parseLine_keyed (by decide), parseValue_plain hm]
    rfl
  unfold yamlParseDoc
  rw [hws]
  simp only [Bool.false_eq_true, if_false]
  rw [splitLines_append hnl1, splitLines_append hnl2, splitLines_no_newline hnl3]
  simp only [List.mapM_cons, List.mapM_nil, pl1, pl2, pl4]
  simp +decide

theorem yaml_four_lines {n d m : JStr} {ts : List JStr}
    (hn : safePlain n = true) (hd : safePlain d = true)
    (ht : ∀ t ∈ ts, t.all scalarChar = true) (hm : safePlain m = true) :
    yamlParseDoc ((js "name: " ++ n) ++ ('\n' :: ((js "description: " ++ d) ++
        ('\n' :: ((js "allowed-tools: " ++ jsonArr ts) ++ ('\n' :: (js "model: " ++ m))))))) =
      .ok (some [(js "name", YVal.str n), (js "description", YVal.str d),
        (js "allowed-tools", YVal.arr ts), (js "model", YVal.str m)]) := by
  have hnl1 : '\n' ∉ js "name: " ++ n :=
    no_nl_append (by decide) (scalar_no_nl (safePlain_parts hn).2.1)
  have hnl2 : '\n' ∉ js "description: " ++ d :=
    no_nl_append (by decide) (scalar_no_nl (safePlain_parts hd).2.1)
  have hnl3 : '\n' ∉ js "allowed-tools: " ++ jsonArr ts :=
    no_nl_append (by decide) (jsonArr_no_newline ht)
  have hnl4 : '\n' ∉ js "model: " ++ m :=
    no_nl_append (by decide) (scalar_no_nl (safePlain_parts hm).2.1)
  have hws : (((js "name: " ++ n) ++ ('\n' :: ((js "description: " ++ d) ++
      ('\n' :: ((js "allowed-tools: " ++ jsonArr ts) ++
        ('\n' :: (js "model: " ++ m))))))).all jsIsWs) = false := by
    rw [show (js "name: " ++ n) ++ ('\n' :: ((js "description: " ++ d) ++
      ('\n' :: ((js "allowed-tools: " ++ jsonArr ts) ++ ('\n' :: (js "model: " ++ m)))))) =
      'n' :: ((js "ame: " ++ n) ++ ('\n' :: ((js "description: " ++ d) ++
        ('\n' :: ((js "allowed-tools: " ++ jsonArr ts) ++
          ('\n' :: (js "model: " ++ m))))))) from rfl]
    simp [List.all_cons, jsIsWs]
  have pl1 : parseLine (js "name: " ++ n) = some (js "name", YVal.str n) := by
    rw [show js "name: " ++ n = js "name" ++ (':' :: ' ' :: n) from rfl]
    rw [parseLine_keyed (by decide), parseValue_plain hn]
    rfl
  have pl2 : parseLine (js "description: " ++ d) = some (js "description", YVal.str d) := by
    rw [show js "description: " ++ d = js "description" ++ (':' :: ' ' :: d) from rfl]
    rw [parseLine_keyed (by decide), parseValue_plain hd]
    rfl
  have pl3 : parseLine (js "allowed-tools: " ++ jsonArr ts) =
      some (js "allowed-tools", YVal.arr ts) := by
    rw [show js "allowed-tools: " ++ jsonArr ts =
      js "allowed-tools" ++ (':' :: ' ' :: jsonArr ts) from rfl]
    rw [parseLine_keyed (by decide), parseValue_jsonArr ht]
    rfl
  have pl4 : parseLine (js "model: " ++ m) = some (js "model", YVal.str m) := by
    rw [show js "model: " ++ m = js "model" ++ (':' :: ' ' :: m) from rfl]
    rw [parseLine_keyed (by decide), parseValue_plain hm]
    rfl
  unfold yamlParseDoc
  rw [hws]
  simp only [Bool.false_eq_true, if_false]
  rw [splitLines_append hnl1, splitLines_append hnl2, splitLines_append hnl3,
    splitLines_no_newline hnl4]
  simp only [List.mapM_cons, List.mapM_nil, pl1, pl2, pl3, pl4]
  simp +decide

theorem camelize_nd (a b : YVal) :
    camelize [(js "name", a), (js "description", b)] =
      [(js "name", a), (js "description", b)] := by
  simp only [camelize, List.foldl_cons, List.foldl_nil]
  rw [show camelKey (js "name") = js "name" from by decide,
    show camelKey (js "description") = js "description" from by decide]
  simp +decide [objInsert]

theorem camelize_ndt (a b t : YVal) :
    camelize [(js "name", a), (js "description", b), (js "allowed-tools", t)] =
      [(js "name", a), (js "description", b), (js "allowed-tools", t),
        (js "allowedTools", t)] := by
  simp only [camelize, List.foldl_cons, List.foldl_nil]
  rw [show camelKey (js "name") = js "name" from by decide,
    show camelKey (js "description") = js "description" from by decide,
    show camelKey (js "allowed-tools") = js "allowedTools" from by decide]
  simp +decide [objInsert]

theorem camelize_ndm (a b m : YVal) :
    camelize [(js "name", a), (js "description", b), (js "model", m)] =
      [(js "name", a), (js "description", b), (js "model", m)] := by
  simp only [camelize, List.foldl_cons, List.foldl_nil]
  rw [show camelKey (js "name") = js "name" from by decide,
    show camelKey (js "description") = js "description" from by decide,
    show camelKey (js "model") = js "model" from by decide]
  simp +decide [objInsert]

theorem camelize_ndtm (a b t m : YVal) :
    camelize [(js "name", a), (js "description", b), (js "allowed-tools", t),
      (js "model", m)] =
      [(js "name", a), (js "description", b), (js "allowed-tools", t),
        (js "model", m), (js "allowedTools", t)] := by
  simp only [camelize, List.foldl_cons, List.foldl_nil]
  rw [show camelKey (js "name") = js "name" from by decide,
    show camelKey (js "description") = js "description" from by decide,
    show camelKey (js "allowed-tools") = js "allowedTools" from by decide,
    show camelKey (js "model") = js "model" from by decide]
  simp +decide [objInsert]

theorem noTriple_line {a v r : JStr} (ha : hasTriple a = false) (hv : hasTriple v = false)
    (hvh : v.head? ≠ some '-') (hr : hasTriple r = false) :
    hasTriple ((a ++ v) ++ ('\n' :: r)) = false :=
  noTriple_append_right (noTriple_append_right ha hv hvh)
    (hasTriple_cons_of_ne (by decide) hr) (by simp)

theorem head_obl {s : JStr} {x : Char} (hx : s.head? = some x) (hws : jsIsWs x = false) :
    ∀ c, s.head? = some c → jsIsWs c = false := by
  intro c hc
  rw [hx] at hc
  injection hc with e
  exact e ▸ hws

theorem parse_doc_nn (n d b : JStr) (hn : safeValue n = true) (hd : safeValue d = true) :
    parseSkillMarkdown (createSkillDoc n d none none b) =
      some ⟨some [(js "name", YVal.str n), (js "description", YVal.str d)], jsTrim b⟩ := by
  obtain ⟨hnp, hnt⟩ := safeValue_parts hn
  obtain ⟨hdp, hdt⟩ := safeValue_parts hd
  have hshape : createSkillDoc n d none none b =
      p3 ++ (('\n' :: (((js "name: " ++ n) ++ ('\n' :: (js "description: " ++ d))) ++ ['\n'])) ++
        (p3 ++ ('\n' :: '\n' :: b))) := by
    simp only [createSkillDoc,
      show js "---\nname: " = p3 ++ ('\n' :: js "name: ") from rfl,
      show js "\ndescription: " = '\n' :: js "description: " from rfl,
      show js "\n---\n\n" = '\n' :: (p3 ++ ('\n' :: '\n' :: ([] : JStr))) from rfl,
      List.append_assoc, List.cons_append, List.nil_append, List.append_nil]
  have h1 : hasTriple ((js "name: " ++ n) ++ ('\n' :: (js "description: " ++ d))) = false :=
    noTriple_line (by decide) hnt (safePlain_head_ne_hyphen hnp)
      (noTriple_append_right (by decide) hdt (safePlain_head_ne_hyphen hdp))
  have hmh : ((js "name: " ++ n) ++ ('\n' :: (js "description: " ++ d))).head? = some 'n' := by
    simp [List.head?_append, show (js "name: ").head? = some 'n' from by decide]
  have hml : ((js "name: " ++ n) ++ ('\n' :: (js "description: " ++ d))).getLast? =
      d.getLast? := by
    rw [List.getLast?_append_of_ne_nil _ (by simp : ('\n' :: (js "description: " ++ d)) ≠ [])]
    rw [show ('\n' :: (js "description: " ++ d)) = ['\n'] ++ (js "description: " ++ d) from rfl]
    rw [List.getLast?_append_of_ne_nil _ ?hne1, List.getLast?_append_of_ne_nil _ ?hne2]
    case hne1 =>
      rw [show js "description: " ++ d = 'd' :: (js "escription: " ++ d) from rfl]
      simp
    case hne2 => exact (safePlain_parts hdp).1
  rw [hshape, parse_fm_doc _ b h1 (head_obl hmh (by decide))
    (fun c hc => safePlain_last_not_ws hdp c (hml ▸ hc))]
  rw [yaml_two_lines hnp hdp]
  simp [camelize_nd]

theorem last_obl {s : JStr} {x : Char} (hx : s.getLast? = some x) (hws : jsIsWs x = false) :
    ∀ c, s.getLast? = some c → jsIsWs c = false := by
  intro c hc
  rw [hx] at hc
  injection hc with e
  exact e ▸ hws

theorem getLast?_line_cons {a r : JStr} (hr : r ≠ []) :
    (a ++ ('\n' :: r)).getLast? = r.getLast? := by
  rw [List.getLast?_append_of_ne_nil _ (by simp : ('\n' :: r) ≠ [])]
  rw [show ('\n' :: r) = ['\n'] ++ r from rfl]
  rw [List.getLast?_append_of_ne_nil _ hr]

theorem parse_doc_nm (n d m b : JStr) (hn : safeValue n = true) (hd : safeValue d = true)
    (hm : safeValue m = true) :
    parseSkillMarkdown (createSkillDoc n d none (some m) b) =
      some ⟨some [(js "name", YVal.str n), (js "description", YVal.str d),
        (js "model", YVal.str m)], jsTrim b⟩ := by
  obtain ⟨hnp, hnt⟩ := safeValue_parts hn
  obtain ⟨hdp, hdt⟩ := safeValue_parts hd
  obtain ⟨hmp, hmt⟩ := safeValue_parts hm
  have hmE : m.isEmpty = false := by
    cases m with
    | nil => exact absurd hmp (by decide)
    | cons c r => rfl
  have hshape : createSkillDoc n d none (some m) b =
      p3 ++ (('\n' :: (((js "name: " ++ n) ++ ('\n' :: ((js "description: " ++ d) ++
        ('\n' :: (js "model: " ++ m))))) ++ ['\n'])) ++ (p3 ++ ('\n' :: '\n' :: b))) := by
    simp only [createSkillDoc, hmE, Bool.false_eq_true, if_false,
      show js "---\nname: " = p3 ++ ('\n' :: js "name: ") from rfl,
      show js "\ndescription: " = '\n' :: js "description: " from rfl,
      show js "\nmodel: " = '\n' :: js "model: " from rfl,
      show js "\n---\n\n" = '\n' :: (p3 ++ ('\n' :: '\n' :: ([] : JStr))) from rfl,
      List.append_assoc, List.cons_append, List.nil_append, List.append_nil]
  have h1 : hasTriple ((js "name: " ++ n) ++ ('\n' :: ((js "description: " ++ d) ++
      ('\n' :: (js "model: " ++ m))))) = false :=
    noTriple_line (by decide) hnt (safePlain_head_ne_hyphen hnp)
      (noTriple_line (by decide) hdt (safePlain_head_ne_hyphen hdp)
        (noTriple_append_right (by decide) hmt (safePlain_head_ne_hyphen hmp)))
  have hmh : ((js "name: " ++ n) ++ ('\n' :: ((js "description: " ++ d) ++
      ('\n' :: (js "model: " ++ m))))).head? = some 'n' := by
    simp [List.head?_append, show (js "name: ").head? = some 'n' from by decide]
  have hml : ((js "name: " ++ n) ++ ('\n' :: ((js "description: " ++ d) ++
      ('\n' :: (js "model: " ++ m))))).getLast? = m.getLast? := by
    rw [getLast?_line_cons (by simp), getLast?_line_cons ?hCne,
      List.getLast?_append_of_ne_nil _ (safePlain_parts hmp).1]
    case hCne =>
      rw [show js "model: " ++ m = 'm' :: (js "odel: " ++ m) from rfl]
      simp
  rw [hshape, parse_fm_doc _ b h1 (head_obl hmh (by decide))
    (fun c hc => safePlain_last_not_ws hmp c (hml ▸ hc))]
  rw [yaml_three_lines_model hnp hdp hmp]
  simp [camelize_ndm]

theorem parse_doc_tn (n d b : JStr) (t0 : JStr) (ts0 : List JStr)
    (hn : safeValue n = true) (hd : safeValue d = true)
    (ht : ∀ t ∈ t0 :: ts0, safeTool t = true) :
    parseSkillMarkdown (createSkillDoc n d (some (t0 :: ts0)) none b) =
      some ⟨some [(js "name", YVal.str n), (js "description", YVal.str d),
        (js "allowed-tools", YVal.arr (t0 :: ts0)),
        (js "allowedTools", YVal.arr (t0 :: ts0))], jsTrim b⟩ := by
  obtain ⟨hnp, hnt⟩ := safeValue_parts hn
  obtain ⟨hdp, hdt⟩ := safeValue_parts hd
  have hta : ∀ t ∈ t0 :: ts0, t.all scalarChar = true :=
    fun t htm => (safeTool_parts (ht t htm)).1
  have htt : ∀ t ∈ t0 :: ts0, hasTriple t = false :=
    fun t htm => (safeTool_parts (ht t htm)).2
  have hshape : createSkillDoc n d (some (t0 :: ts0)) none b =
      p3 ++ (('\n' :: (((js "name: " ++ n) ++ ('\n' :: ((js "description: " ++ d) ++
        ('\n' :: (js "allowed-tools: " ++ jsonArr (t0 :: ts0)))))) ++ ['\n'])) ++
        (p3 ++ ('\n' :: '\n' :: b))) := by
    simp only [createSkillDoc, List.isEmpty_cons, Bool.false_eq_true, if_false,
      show js "---\nname: " = p3 ++ ('\n' :: js "name: ") from rfl,
      show js "\ndescription: " = '\n' :: js "description: " from rfl,
      show js "\nallowed-tools: " = '\n' :: js "allowed-tools: " from rfl,
      show js "\n---\n\n" = '\n' :: (p3 ++ ('\n' :: '\n' :: ([] : JStr))) from rfl,
      List.append_assoc, List.cons_append, List.nil_append, List.append_nil]
  have h1 : hasTriple ((js "name: " ++ n) ++ ('\n' :: ((js "description: " ++ d) ++
      ('\n' :: (js "allowed-tools: " ++ jsonArr (t0 :: ts0)))))) = false :=
    noTriple_line (by decide) hnt (safePlain_head_ne_hyphen hnp)
      (noTriple_line (by decide) hdt (safePlain_head_ne_hyphen hdp)
        (noTriple_append_right (by decide) (jsonArr_noTriple htt)
          (by rw [jsonArr_head]; simp)))
  have hmh : ((js "name: " ++ n) ++ ('\n' :: ((js "description: " ++ d) ++
      ('\n' :: (js "allowed-tools: " ++ jsonArr (t0 :: ts0)))))).head? = some 'n' := by
    simp [List.head?_append, show (js "name: ").head? = some 'n' from by decide]
  have hml : ((js "name: " ++ n) ++ ('\n' :: ((js "description: " ++ d) ++
      ('\n' :: (js "allowed-tools: " ++ jsonArr (t0 :: ts0)))))).getLast? = some ']' := by
    rw [getLast?_line_cons (by simp), getLast?_line_cons ?hCne,
      List.getLast?_append_of_ne_nil _ ?hArrNe, jsonArr_getLast]
    case hCne =>
      rw [show js "allowed-tools: " ++ jsonArr (t0 :: ts0) =
        'a' :: (js "llowed-tools: " ++ jsonArr (t0 :: ts0)) from rfl]
      simp
    case hArrNe =>
      rw [show jsonArr (t0 :: ts0) = '[' :: jsonItems (t0 :: ts0) from rfl]
      simp
  rw [hshape, parse_fm_doc _ b h1 (head_obl hmh (by decide)) (last_obl hml (by decide))]
  rw [yaml_three_lines_tools hnp hdp hta]
  simp [camelize_ndt]

theorem parse_doc_tm (n d m b : JStr) (t0 : JStr) (ts0 : List JStr)
    (hn : safeValue n = true) (hd : safeValue d = true)
    (ht : ∀ t ∈ t0 :: ts0, safeTool t = true) (hm : safeValue m = true) :
    parseSkillMarkdown (createSkillDoc n d (some (t0 :: ts0)) (some m) b) =
      some ⟨some [(js "name", YVal.str n), (js "description", YVal.str d),
        (js "allowed-tools", YVal.arr (t0 :: ts0)), (js "model", YVal.str m),
        (js "allowedTools", YVal.arr (t0 :: ts0))], jsTrim b⟩ := by
  obtain ⟨hnp, hnt⟩ := safeValue_parts hn
  obtain ⟨hdp, hdt⟩ := safeValue_parts hd
  obtain ⟨hmp, hmt⟩ := safeValue_parts hm
  have hta : ∀ t ∈ t0 :: ts0, t.all scalarChar = true :=
    fun t htm => (safeTool_parts (ht t htm)).1
  have htt : ∀ t ∈ t0 :: ts0, hasTriple t = false :=
    fun t htm => (safeTool_parts (ht t htm)).2
  have hmE : m.isEmpty = false := by
    cases m with
    | nil => exact absurd hmp (by decide)
    | cons c r => rfl
  have hshape : createSkillDoc n d (some (t0 :: ts0)) (some m) b =
      p3 ++ (('\n' :: (((js "name: " ++ n) ++ ('\n' :: ((js "description: " ++ d) ++
        ('\n' :: ((js "allowed-tools: " ++ jsonArr (t0 :: ts0)) ++
          ('\n' :: (js "model: " ++ m))))))) ++ ['\n'])) ++
        (p3 ++ ('\n' :: '\n' :: b))) := by
    simp only [createSkillDoc, List.isEmpty_cons, hmE, Bool.false_eq_true, if_false,
      show js "---\nname: " = p3 ++ ('\n' :: js "name: ") from rfl,
      show js "\ndescription: " = '\n' :: js "description: " from rfl,
      show js "\nallowed-tools: " = '\n' :: js "allowed-tools: " from rfl,
      show js "\nmodel: " = '\n' :: js "model: " from rfl,
      show js "\n---\n\n" = '\n' :: (p3 ++ ('\n' :: '\n' :: ([] : JStr))) from rfl,
      List.append_assoc, List.cons_append, List.nil_append, List.append_nil]
  have h1 : hasTriple ((js "name: " ++ n) ++ ('\n' :: ((js "description: " ++ d) ++
      ('\n' :: ((js "allowed-tools: " ++ jsonArr (t0 :: ts0)) ++
        ('\n' :: (js "model: " ++ m))))))) = false :=
    noTriple_line (by decide) hnt (safePlain_head_ne_hyphen hnp)
      (noTriple_line (by decide) hdt (safePlain_head_ne_hyphen hdp)
        (noTriple_line (by decide) (jsonArr_noTriple htt) (by rw [jsonArr_head]; simp)
          (noTriple_append_right (by decide) hmt (safePlain_head_ne_hyphen hmp))))
  have hmh : ((js "name: " ++ n) ++ ('\n' :: ((js "description: " ++ d) ++
      ('\n' :: ((js "allowed-tools: " ++ jsonArr (t0 :: ts0)) ++
        ('\n' :: (js "model: " ++ m))))))).head? = some 'n' := by
    simp [List.head?_append, show (js "name: ").head? = some 'n' from by decide]
  have hml : ((js "name: " ++ n) ++ ('\n' :: ((js "description: " ++ d) ++
      ('\n' :: ((js "allowed-tools: " ++ jsonArr (t0 :: ts0)) ++
        ('\n' :: (js "model: " ++ m))))))).getLast? = m.getLast? := by
    rw [getLast?_line_cons (by simp), getLast?_line_cons (by simp),
      getLast?_line_cons ?hCne, List.getLast?_append_of_ne_nil _ (safePlain_parts hmp).1]
    case hCne =>
      rw [show js "model: " ++ m = 'm' :: (js "odel: " ++ m) from rfl]
      simp
  rw [hshape, parse_fm_doc _ b h1 (head_obl hmh (by decide))
    (fun c hc => safePlain_last_not_ws hmp c (hml ▸ hc))]
  rw [yaml_four_lines hnp hdp hta hmp]
  simp [camelize_ndtm]

theorem parse_createSkillDoc (n d b : JStr) (tools : Option (List JStr)) (mdl : Option JStr)
    (hn : safeValue n = true) (hd : safeValue d = true)
    (ht : ∀ ts ∈ tools, ∀ t ∈ ts, safeTool t = true)
    (hm : ∀ m ∈ mdl, safeValue m = true) :
    parseSkillMarkdown (createSkillDoc n d tools mdl b) =
      some ⟨some (skillObj n d tools mdl), jsTrim b⟩ := by
  match tools, mdl with
  | none, none =>
    rw [parse_doc_nn n d b hn hd]
    simp [skillObj]
  | none, some m =>
    have hm' : safeValue m = true := hm m (Option.mem_def.mpr rfl)
    have hmE : m.isEmpty = false := by
      cases m with
      | nil => exact absurd (safeValue_parts hm').1 (by decide)
      | cons c r => rfl
    rw [parse_doc_nm n d m b hn hd hm']
    simp [skillObj, hmE]
  | some ts, none =>
    cases ts with
    | nil =>
      rw [show createSkillDoc n d (some []) none b = createSkillDoc n d none none b
        from by simp [createSkillDoc]]
      rw [parse_doc_nn n d b hn hd]
      simp [skillObj]
    | cons t0 ts0 =>
      have ht' : ∀ t ∈ t0 :: ts0, safeTool t = true :=
        ht (t0 :: ts0) (Option.mem_def.mpr rfl)
      rw [parse_doc_tn n d b t0 ts0 hn hd ht']
      simp [skillObj]
  | some ts, some m =>
    have hm' : safeValue m = true := hm m (Option.mem_def.mpr rfl)
    have hmE : m.isEmpty = false := by
      cases m with
      | nil => exact absurd (safeValue_parts hm').1 (by decide)
      | cons c r => rfl
    cases ts with
    | nil =>
      rw [show createSkillDoc n d (some []) (some m) b = createSkillDoc n d none (some m) b
        from by simp [createSkillDoc]]
      rw [parse_doc_nm n d m b hn hd hm']
      simp [skillObj, hmE]
    | cons t0 ts0 =>
      have ht' : ∀ t ∈ t0 :: ts0, safeTool t = true :=
        ht (t0 :: ts0) (Option.mem_def.mpr rfl)
      rw [parse_doc_tm n d m b t0 ts0 hn hd ht' hm']
      simp [skillObj, hmE]

theorem objGet_keys_subset {o : YObj} {k : JStr} (h : ∀ p ∈ o, ¬ (p.1 = k)) :
    objGet o k = none := by
  unfold objGet
  rw [List.find?_eq_none.mpr ?hnone]
  · rfl
  case hnone =>
    intro p hp
    simp [h p hp]

theorem skillObj_keys (n d : JStr) (tools : Option (List JStr)) (mdl : Option JStr) :
    ∀ p ∈ skillObj n d tools mdl, p.1 ∈ wellKnownKeys := by
  have gen : ∀ (te : Option (List JStr)) (me : Option JStr) (p : JStr × YVal),
      p ∈ ([(js "name", YVal.str n), (js "description", YVal.str d)] ++
        (match te with | some ts => [(js "allowed-tools", YVal.arr ts)] | none => []) ++
        (match me with | some m => [(js "model", YVal.str m)] | none => []) ++
        (match te with | some ts => [(js "allowedTools", YVal.arr ts)] | none => [])) →
      p.1 ∈ wellKnownKeys := by
    intro te me p hp
    rcases te with _ | ts <;> rcases me with _ | m <;>
      simp only [List.mem_append, List.mem_cons, List.not_mem_nil, or_false, false_or] at hp <;>
      first
        | (rcases hp with rfl | rfl <;> simp [wellKnownKeys])
        | (rcases hp with (rfl | rfl) | rfl <;> simp [wellKnownKeys])
        | (rcases hp with ((rfl | rfl) | rfl) | rfl <;> simp [wellKnownKeys])
        | (rcases hp with (((rfl | rfl) | rfl) | rfl) | rfl <;> simp [wellKnownKeys])
  intro p hp
  simp only [skillObj] at hp
  exact gen _ _ p hp

end Lemmas

theorem quote_not_ws {c : Char} (h : isQuoteChar c = true) : jsIsWs c = false := by
  simp [isQuoteChar] at h
  rcases h with h | h <;> (subst h; decide)

theorem getLast?_cons_ne_none (e : Char) (r : JStr) : (e :: r).getLast? ≠ none := by
  induction r generalizing e with
  | nil => simp [List.getLast?]
  | cons f r' ih => rw [List.getLast?_cons_cons]; exact ih f

theorem dropEndQuote_cons_of_ne_nil {d : Char} {rest : JStr} (h : rest ≠ []) :
    dropEndQuote (d :: rest) = d :: dropEndQuote rest := by
  unfold dropEndQuote
  cases rest with
  | nil => exact absurd rfl h
  | cons e r =>
    rw [List.getLast?_cons_cons]
    cases hx : (e :: r).getLast? with
    | none => exact absurd hx (getLast?_cons_ne_none e r)
    | some c =>
      by_cases hq : isQuoteChar c = true
      · simp only [hq, if_true]
        exact List.dropLast_cons_of_ne_nil (by simp)
      · have hq' : isQuoteChar c = false := by
          cases h2 : isQuoteChar c
          · rfl
          · exact absurd h2 hq
        simp [hq']

theorem stripTail_eq : ∀ (rest : JStr) (i : Nat), 1 ≤ i →
    ((rest.enumFrom i).filter (fun p =>
      !((decide (p.1 = 0) && isQuoteChar p.2) ||
        (decide (p.1 + 1 = i + rest.length) && isQuoteChar p.2)))).map Prod.snd =
    dropEndQuote rest := by
  intro rest
  induction rest with
  | nil => intro i _; rfl
  | cons d rest' ih =>
    intro i hi
    rw [List.enumFrom_cons, List.filter_cons]
    have h0 : decide (i = 0) = false := decide_eq_false (by omega)
    cases rest' with
    | nil =>
      by_cases hq : isQuoteChar d = true
      · simp [h0, hq, dropEndQuote]
      · have hq' : isQuoteChar d = false := by
          cases h2 : isQuoteChar d
          · rfl
          · exact absurd h2 hq
        simp [h0, hq', dropEndQuote]
    | cons e r' =>
      have harith : i + (d :: e :: r').length = (i + 1) + (e :: r').length := by
        simp [List.length_cons]
        omega
      rw [harith]
      have h1 : decide (i + 1 = i + 1 + (e :: r').length) = false :=
        decide_eq_false (by simp [List.length_cons])
      simp only [h0, h1, Bool.false_and, Bool.or_false, Bool.not_false, eq_self_iff_true,
        if_true, List.map_cons]
      rw [ih (i + 1) (by omega)]
      rw [show dropEndQuote (d :: e :: r') = d :: dropEndQuote (e :: r') from
        dropEndQuote_cons_of_ne_nil (by simp)]

theorem jsStripQuotes_eq (s : JStr) : jsStripQuotes s = dropEndQuote (dropStartQuote s) := by
  cases s with
  | nil => rfl
  | cons c rest =>
    unfold jsStripQuotes dropStartQuote
    rw [show List.enum (c :: rest) = (0, c) :: rest.enumFrom 1 from rfl]
    rw [show (c :: rest).length = 1 + rest.length from by simp [Nat.add_comm]]
    rw [List.filter_cons]
    by_cases hq : isQuoteChar c = true
    · simp only [Bool.false_eq_true]
      rw [show (!(decide True && isQuoteChar c ||
          decide (0 + 1 = 1 + rest.length) && isQuoteChar c)) = false from by simp [hq]]
      simp only [Bool.false_eq_true, if_false]
      rw [stripTail_eq rest 1 (le_refl 1)]
      simp [hq]
    · have hq' : isQuoteChar c = false := by
        cases h2 : isQuoteChar c
        · rfl
        · exact absurd h2 hq
      simp only [Bool.false_eq_true]
      rw [show (!(decide True && isQuoteChar c ||
          decide (0 + 1 = 1 + rest.length) && isQuoteChar c)) = true from by simp [hq']]
      simp only [eq_self_iff_true, if_true, List.map_cons]
      rw [stripTail_eq rest 1 (le_refl 1)]
      simp only [hq', Bool.false_eq_true, if_false]
      cases rest with
      | nil => simp [dropEndQuote, hq']
      | cons e r =>
        rw [show dropEndQuote (c :: e :: r) = c :: dropEndQuote (e :: r) from
          dropEndQuote_cons_of_ne_nil (by simp)]

theorem stripQuotes_sandwich {q1 q2 core : JStr}
    (hq1 : q1 = [] ∨ ∃ c, q1 = [c] ∧ isQuoteChar c = true)
    (hq2 : q2 = [] ∨ ∃ c, q2 = [c] ∧ isQuoteChar c = true)
    (hne : core ≠ [])
    (hh : ∀ c, core.head? = some c → isQuoteChar c = false)
    (hl : ∀ c, core.getLast? = some c → isQuoteChar c = false) :
    dropEndQuote (dropStartQuote (q1 ++ (core ++ q2))) = core := by
  have hstart : dropStartQuote (q1 ++ (core ++ q2)) = core ++ q2 := by
    rcases hq1 with rfl | ⟨c, rfl, hqc⟩
    · cases core with
      | nil => exact absurd rfl hne
      | cons ch core' =>
        simp only [List.nil_append, List.cons_append, dropStartQuote]
        rw [hh ch rfl]
        simp
    · simp [dropStartQuote, hqc]
  rw [hstart]
  rcases hq2 with rfl | ⟨c, rfl, hqc⟩
  · rw [List.append_nil]
    unfold dropEndQuote
    cases core with
    | nil => exact absurd rfl hne
    | cons e r =>
      cases hx : (e :: r).getLast? with
      | none => exact absurd hx (getLast?_cons_ne_none e r)
      | some cc => simp [hl cc hx]
  · unfold dropEndQuote
    simp [List.getLast?_concat, hqc]

theorem normalize_sandwich {w1 w2 q1 q2 core : JStr}
    (hw1 : w1.all jsIsWs = true) (hw2 : w2.all jsIsWs = true)
    (hq1 : q1 = [] ∨ ∃ c, q1 = [c] ∧ isQuoteChar c = true)
    (hq2 : q2 = [] ∨ ∃ c, q2 = [c] ∧ isQuoteChar c = true)
    (hne : core ≠ [])
    (hh : ∀ c, core.head? = some c → (jsIsWs c = false ∧ isQuoteChar c = false))
    (hl : ∀ c, core.getLast? = some c → (jsIsWs c = false ∧ isQuoteChar c = false)) :
    normalizeResponse (w1 ++ ((q1 ++ (core ++ q2)) ++ w2)) = core := by
  have hX : jsTrim (w1 ++ ((q1 ++ (core ++ q2)) ++ w2)) = q1 ++ (core ++ q2) := by
    apply jsTrim_sandwich hw1 hw2
    · intro c hc
      rcases hq1 with rfl | ⟨cq, rfl, hqc⟩
      · cases core with
        | nil => exact absurd rfl hne
        | cons ch core' =>
          simp only [List.nil_append, List.cons_append, List.head?_cons,
            Option.some.injEq] at hc
          exact hc ▸ (hh ch rfl).1
      · simp only [List.cons_append, List.head?_cons, Option.some.injEq] at hc
        exact hc ▸ quote_not_ws hqc
    · intro c hc
      rcases hq2 with rfl | ⟨cq, rfl, hqc⟩
      · rw [List.append_nil, List.getLast?_append_of_ne_nil _ hne] at hc
        exact (hl c hc).1
      · rw [show q1 ++ (core ++ [cq]) = (q1 ++ core) ++ [cq] from by simp,
          List.getLast?_concat] at hc
        injection hc with e
        exact e ▸ quote_not_ws hqc
  unfold normalizeResponse
  rw [hX, jsStripQuotes_eq]
  exact stripQuotes_sandwich hq1 hq2 hne (fun c hc => (hh c hc).2) (fun c hc => (hl c hc).2)

/-- C5: whenever the routing model is configured and at least one
skill is enabled, an exception from the external classification call
is caught and the router returns the uniform no-match guidance
message listing the enabled skills; the error is not propagated. -/
theorem c5_classification_error_yields_no_match (m req : JStr) (s : ClaudeSkill)
    (ss : List ClaudeSkill) :
    toolRun (some m) (s :: ss) req (Except.error ()) = (formatNoMatchMessage (s :: ss), 1) :=
  rfl

/-- C6: with no routing model preference stored, the router returns
the setup-guidance text verbatim and performs zero external
classification calls, for every skill list, request and oracle. -/
theorem c6_unconfigured_setup_guidance (skills : List ClaudeSkill) (req : JStr)
    (resp : Except Unit JStr) :
    toolRun (getRoutingModel none) skills req resp = (setupGuidance, 0) :=
  rfl

/-- C9: `disableSkill` removes every occurrence of the name from the
stored list (even duplicates), preserves the relative order of the
remaining entries, and `isSkillEnabled` is false immediately after. -/
theorem c9_disable_removes_all_occurrences (st : List JStr) (n : JStr) :
    (∀ m, m ∈ disableSkill n st ↔ (m ∈ st ∧ m ≠ n)) ∧
    (disableSkill n st).Sublist st ∧
    isSkillEnabled n (disableSkill n st) = false := by
  refine ⟨fun m => ?_, List.filter_sublist _, ?_⟩
  · simp [disableSkill, getEnabledSkills, List.mem_filter]
  · simp [isSkillEnabled, disableSkill, getEnabledSkills, List.contains_iff_exists_mem_beq,
      List.mem_filter]

/-- C1 (amended): for every metadata record whose name, description,
capability identifiers and model are safe single-line scalars (no
newlines, colons, quotes, leading or trailing blanks, or triple
hyphens) and every body, parsing the serialized document succeeds and
returns the well-known metadata fields intact (an empty capability
list and an absent one both read back as absent) and the body
trimmed of leading and trailing whitespace. -/
theorem c1_roundtrip_amended (n d b : JStr) (tools : Option (List JStr)) (mdl : Option JStr)
    (hn : safeValue n = true) (hd : safeValue d = true)
    (ht : ∀ ts ∈ tools, ∀ t ∈ ts, safeTool t = true)
    (hm : ∀ m ∈ mdl, safeValue m = true) :
    (parseSkillMarkdown (createSkillDoc n d tools mdl b)).map Parsed.content =
        some (jsTrim b) ∧
    metaGet (parseSkillMarkdown (createSkillDoc n d tools mdl b)) (js "name") =
        some (YVal.str n) ∧
    metaGet (parseSkillMarkdown (createSkillDoc n d tools mdl b)) (js "description") =
        some (YVal.str d) ∧
    metaGet (parseSkillMarkdown (createSkillDoc n d tools mdl b)) (js "allowedTools") =
        (match tools with
         | some ts => if ts.isEmpty then none else some (YVal.arr ts)
         | none => none) ∧
    metaGet (parseSkillMarkdown (createSkillDoc n d tools mdl b)) (js "model") =
        (match mdl with | some m => some (YVal.str m) | none => none) := by
  rw [parse_createSkillDoc n d b tools mdl hn hd ht hm]
  match tools, mdl with
  | none, none =>
    refine ⟨rfl, ?_, ?_, ?_, ?_⟩ <;> simp +decide [metaGet, objGet, skillObj, List.find?]
  | none, some m =>
    have hm' : safeValue m = true := hm m (Option.mem_def.mpr rfl)
    have hmE : m.isEmpty = false := by
      cases m with
      | nil => exact absurd (safeValue_parts hm').1 (by decide)
      | cons c r => rfl
    refine ⟨rfl, ?_, ?_, ?_, ?_⟩ <;>
      simp +decide [metaGet, objGet, skillObj, List.find?, hmE]
  | some ts, none =>
    cases ts with
    | nil =>
      refine ⟨rfl, ?_, ?_, ?_, ?_⟩ <;> simp +decide [metaGet, objGet, skillObj, List.find?]
    | cons t0 ts0 =>
      refine ⟨rfl, ?_, ?_, ?_, ?_⟩ <;> simp +decide [metaGet, objGet, skillObj, List.find?]
  | some ts, some m =>
    have hm' : safeValue m = true := hm m (Option.mem_def.mpr rfl)
    have hmE : m.isEmpty = false := by
      cases m with
      | nil => exact absurd (safeValue_parts hm').1 (by decide)
      | cons c r => rfl
    cases ts with
    | nil =>
      refine ⟨rfl, ?_, ?_, ?_, ?_⟩ <;>
        simp +decide [metaGet, objGet, skillObj, List.find?, hmE]
    | cons t0 ts0 =>
      refine ⟨rfl, ?_, ?_, ?_, ?_⟩ <;>
        simp +decide [metaGet, objGet, skillObj, List.find?, hmE]

/-- C1 (witness): the amended round-trip at a concrete record with a
capability list and a model. -/
theorem c1_roundtrip_amended_witness :
    (safeValue (js "my-skill") = true ∧ safeValue (js "Reviews code changes") = true ∧
      safeTool (js "Bash") = true ∧ safeTool (js "Read") = true ∧
      safeValue (js "opus") = true) ∧
    ((parseSkillMarkdown (createSkillDoc (js "my-skill") (js "Reviews code changes")
        (some [js "Bash", js "Read"]) (some (js "opus")) (js "Do the thing"))).map
          Parsed.content = some (jsTrim (js "Do the thing")) ∧
      metaGet (parseSkillMarkdown (createSkillDoc (js "my-skill") (js "Reviews code changes")
        (some [js "Bash", js "Read"]) (some (js "opus")) (js "Do the thing"))) (js "name") =
          some (YVal.str (js "my-skill")) ∧
      metaGet (parseSkillMarkdown (createSkillDoc (js "my-skill") (js "Reviews code changes")
        (some [js "Bash", js "Read"]) (some (js "opus")) (js "Do the thing")))
          (js "description") = some (YVal.str (js "Reviews code changes")) ∧
      metaGet (parseSkillMarkdown (createSkillDoc (js "my-skill") (js "Reviews code changes")
        (some [js "Bash", js "Read"]) (some (js "opus")) (js "Do the thing")))
          (js "allowedTools") =
          (match some [js "Bash", js "Read"] with
           | some ts => if ts.isEmpty then none else some (YVal.arr ts)
           | none => none) ∧
      metaGet (parseSkillMarkdown (createSkillDoc (js "my-skill") (js "Reviews code changes")
        (some [js "Bash", js "Read"]) (some (js "opus")) (js "Do the thing"))) (js "model") =
          (match some (js "opus") with
           | some m => some (YVal.str m)
           | none => none)) :=
  ⟨by decide,
    c1_roundtrip_amended (js "my-skill") (js "Reviews code changes") (js "Do the thing")
      (some [js "Bash", js "Read"]) (some (js "opus")) (by decide) (by decide)
      (by
        intro ts hts
        injection hts with e
        subst e
        decide)
      (by
        intro m hm2
        injection hm2 with e
        subst e
        decide)⟩

/-- C1 (counterexample): for the valid metadata `name: x`,
`description: d` and the body `b` followed by a space, parsing the
serialized document succeeds but returns the trimmed body `b`, not
the original body — round-trip does not return the body identically. -/
theorem c1_counterexample :
    parseSkillMarkdown (createSkillDoc (js "x") (js "d") none none (js "b ")) =
      some ⟨some [(js "name", YVal.str (js "x")), (js "description", YVal.str (js "d"))],
        js "b"⟩ ∧
    js "b" ≠ js "b " := by
  decide

/-- C2 (amended): `updateSkill` merges only the provided fields over
the metadata parsed from the current document for the four well-known
fields — name is always kept, and description, allowed-tools and
model keep their current values when absent from the update, with the
body replaced only when provided — but every metadata key outside the
well-known set is dropped from the rewritten document. -/
theorem c2_update_merge (doc body : JStr) (obj : YObj) (u : SkillUpdates)
    (nm dv : JStr) (tl : Option (List JStr)) (md : Option JStr)
    (hparse : parseSkillMarkdown doc = some ⟨some obj, body⟩)
    (hnm : objGet obj (js "name") = some (YVal.str nm)) (hnmS : safeValue nm = true)
    (hdv : (u.description.map YVal.str).orElse (fun _ => objGet obj (js "description")) =
      some (YVal.str dv)) (hdvS : safeValue dv = true)
    (htl : (u.allowedTools.map YVal.arr).orElse (fun _ => objGet obj (js "allowedTools")) =
      tl.map YVal.arr)
    (htlS : ∀ ts ∈ tl, ∀ t ∈ ts, safeTool t = true)
    (hmd : (u.model.map YVal.str).orElse (fun _ => objGet obj (js "model")) =
      md.map YVal.str)
    (hmdS : ∀ m ∈ md, safeValue m = true) :
    updateSkillDoc obj doc u =
      some (createSkillDoc nm dv tl md (u.content.getD body)) ∧
    metaGet (parseSkillMarkdown (createSkillDoc nm dv tl md (u.content.getD body)))
        (js "name") = some (YVal.str nm) ∧
    metaGet (parseSkillMarkdown (createSkillDoc nm dv tl md (u.content.getD body)))
        (js "description") = some (YVal.str dv) ∧
    metaGet (parseSkillMarkdown (createSkillDoc nm dv tl md (u.content.getD body)))
        (js "allowedTools") =
      (match tl with
       | some ts => if ts.isEmpty then none else some (YVal.arr ts)
       | none => none) ∧
    metaGet (parseSkillMarkdown (createSkillDoc nm dv tl md (u.content.getD body)))
        (js "model") = (match md with | some m => some (YVal.str m) | none => none) ∧
    (∀ k, k ∉ wellKnownKeys →
      metaGet (parseSkillMarkdown (createSkillDoc nm dv tl md (u.content.getD body))) k =
        none) := by
  have hrw : parseSkillMarkdown (createSkillDoc nm dv tl md (u.content.getD body)) =
      some ⟨some (skillObj nm dv tl md), jsTrim (u.content.getD body)⟩ :=
    parse_createSkillDoc nm dv (u.content.getD body) tl md hnmS hdvS htlS hmdS
  refine ⟨?_, ?_, ?_, ?_, ?_, ?_⟩
  · unfold updateSkillDoc
    rw [hparse]
    unfold rebuildDoc createSkillDoc
    rw [hnm, hdv, htl, hmd]
    match tl, md with
    | none, none => simp [optToStr, yvalToStr]
    | none, some m =>
      cases m with
      | nil => simp [optToStr, yvalToStr, truthy]
      | cons c r => simp [optToStr, yvalToStr, truthy]
    | some ts, none =>
      cases ts with
      | nil => simp [optToStr, yvalToStr, yvalLenPos, jsonOfYVal]
      | cons t0 ts0 => simp [optToStr, yvalToStr, yvalLenPos, jsonOfYVal]
    | some ts, some m =>
      cases ts with
      | nil =>
        cases m with
        | nil => simp [optToStr, yvalToStr, yvalLenPos, jsonOfYVal, truthy]
        | cons c r => simp [optToStr, yvalToStr, yvalLenPos, jsonOfYVal, truthy]
      | cons t0 ts0 =>
        cases m with
        | nil => simp [optToStr, yvalToStr, yvalLenPos, jsonOfYVal, truthy]
        | cons c r => simp [optToStr, yvalToStr, yvalLenPos, jsonOfYVal, truthy]
  · rw [hrw]
    match tl, md with
    | none, none => simp +decide [metaGet, objGet, skillObj, List.find?]
    | none, some m =>
      have hmE : m.isEmpty = false := by
        cases m with
        | nil => exact absurd (safeValue_parts (hmdS [] (Option.mem_def.mpr rfl))).1 (by decide)
        | cons c r => rfl
      simp +decide [metaGet, objGet, skillObj, List.find?, hmE]
    | some ts, none =>
      cases ts <;> simp +decide [metaGet, objGet, skillObj, List.find?]
    | some ts, some m =>
      have hmE : m.isEmpty = false := by
        cases m with
        | nil => exact absurd (safeValue_parts (hmdS [] (Option.mem_def.mpr rfl))).1 (by decide)
        | cons c r => rfl
      cases ts <;> simp +decide [metaGet, objGet, skillObj, List.find?, hmE]
  · rw [hrw]
    match tl, md with
    | none, none => simp +decide [metaGet, objGet, skillObj, List.find?]
    | none, some m =>
      have hmE : m.isEmpty = false := by
        cases m with
        | nil => exact absurd (safeValue_parts (hmdS [] (Option.mem_def.mpr rfl))).1 (by decide)
        | cons c r => rfl
      simp +decide [metaGet, objGet, skillObj, List.find?, hmE]
    | some ts, none =>
      cases ts <;> simp +decide [metaGet, objGet, skillObj, List.find?]
    | some ts, some m =>
      have hmE : m.isEmpty = false := by
        cases m with
        | nil => exact absurd (safeValue_parts (hmdS [] (Option.mem_def.mpr rfl))).1 (by decide)
        | cons c r => rfl
      cases ts <;> simp +decide [metaGet, objGet, skillObj, List.find?, hmE]
  · rw [hrw]
    match tl, md with
    | none, none => simp +decide [metaGet, objGet, skillObj, List.find?]
    | none, some m =>
      have hmE : m.isEmpty = false := by
        cases m with
        | nil => exact absurd (safeValue_parts (hmdS [] (Option.mem_def.mpr rfl))).1 (by decide)
        | cons c r => rfl
      simp +decide [metaGet, objGet, skillObj, List.find?, hmE]
    | some ts, none =>
      cases ts <;> simp +decide [metaGet, objGet, skillObj, List.find?]
    | some ts, some m =>
      have hmE : m.isEmpty = false := by
        cases m with
        | nil => exact absurd (safeValue_parts (hmdS [] (Option.mem_def.mpr rfl))).1 (by decide)
        | cons c r => rfl
      cases ts <;> simp +decide [metaGet, objGet, skillObj, List.find?, hmE]
  · rw [hrw]
    match tl, md with
    | none, none => simp +decide [metaGet, objGet, skillObj, List.find?]
    | none, some m =>
      have hmE : m.isEmpty = false := by
        cases m with
        | nil => exact absurd (safeValue_parts (hmdS [] (Option.mem_def.mpr rfl))).1 (by decide)
        | cons c r => rfl
      simp +decide [metaGet, objGet, skillObj, List.find?, hmE]
    | some ts, none =>
      cases ts <;> simp +decide [metaGet, objGet, skillObj, List.find?]
    | some ts, some m =>
      have hmE : m.isEmpty = false := by
        cases m with
        | nil => exact absurd (safeValue_parts (hmdS [] (Option.mem_def.mpr rfl))).1 (by decide)
        | cons c r => rfl
      cases ts <;> simp +decide [metaGet, objGet, skillObj, List.find?, hmE]
  · intro k hk
    rw [hrw]
    have hget : objGet (skillObj nm dv tl md) k = none := by
      apply objGet_keys_subset
      intro p hp e
      exact hk (e ▸ skillObj_keys nm dv tl md p hp)
    simp [metaGet, hget]

/-- C2 (witness): the amended merge at a concrete document with only
a new description provided. -/
theorem c2_update_merge_witness :
    (parseSkillMarkdown c2Doc = some ⟨some c2Obj, js "body"⟩ ∧
      objGet c2Obj (js "name") = some (YVal.str (js "x")) ∧
      ((some (js "d2")).map YVal.str).orElse
        (fun _ => objGet c2Obj (js "description")) = some (YVal.str (js "d2"))) ∧
    (updateSkillDoc c2Obj c2Doc ⟨some (js "d2"), none, none, none⟩ =
      some (createSkillDoc (js "x") (js "d2") none none
        ((⟨some (js "d2"), none, none, none⟩ : SkillUpdates).content.getD (js "body"))) ∧
    metaGet (parseSkillMarkdown (createSkillDoc (js "x") (js "d2") none none
        ((⟨some (js "d2"), none, none, none⟩ : SkillUpdates).content.getD (js "body"))))
        (js "name") = some (YVal.str (js "x")) ∧
    metaGet (parseSkillMarkdown (createSkillDoc (js "x") (js "d2") none none
        ((⟨some (js "d2"), none, none, none⟩ : SkillUpdates).content.getD (js "body"))))
        (js "description") = some (YVal.str (js "d2")) ∧
    metaGet (parseSkillMarkdown (createSkillDoc (js "x") (js "d2") none none
        ((⟨some (js "d2"), none, none, none⟩ : SkillUpdates).content.getD (js "body"))))
        (js "allowedTools") =
      (match (none : Option (List JStr)) with
       | some ts => if ts.isEmpty then none else some (YVal.arr ts)
       | none => none) ∧
    metaGet (parseSkillMarkdown (createSkillDoc (js "x") (js "d2") none none
        ((⟨some (js "d2"), none, none, none⟩ : SkillUpdates).content.getD (js "body"))))
        (js "model") =
      (match (none : Option JStr) with | some m => some (YVal.str m) | none => none) ∧
    (∀ k, k ∉ wellKnownKeys →
      metaGet (parseSkillMarkdown (createSkillDoc (js "x") (js "d2") none none
        ((⟨some (js "d2"), none, none, none⟩ : SkillUpdates).content.getD (js "body")))) k =
        none)) :=
  ⟨⟨by decide, by decide, by decide⟩,
    c2_update_merge c2Doc (js "body") c2Obj ⟨some (js "d2"), none, none, none⟩
      (js "x") (js "d2") none none (by decide) (by decide) (by decide) (by decide)
      (by decide) (by decide)
      (fun ts hts => absurd hts (by simp))
      (by decide)
      (fun m hm2 => absurd hm2 (by simp))⟩

/-- C2 (counterexample): the stored document `c2Doc` carries the extra
metadata field `foo: bar`; after `updateSkill` with only a new
description, the rewritten document no longer contains `foo`. -/
theorem c2_counterexample :
    objGet c2Obj (js "foo") = some (YVal.str (js "bar")) ∧
    (updateSkillDoc c2Obj c2Doc ⟨some (js "d2"), none, none, none⟩).map
      (fun nd => metaGet (parseSkillMarkdown nd) (js "foo")) = some none := by
  decide

/-- C3 (counterexample): in `c3Fs` a skill with directory name `b`
exists, yet `findSkill "b"` returns the earlier skill of directory
`a` (whose declared metadata name is `b`) — directory-name matches
are not preferred over declared-name matches. -/
theorem c3_counterexample :
    (getAllSkills c3Fs).any (fun s => s.name = js "b") = true ∧
    (findSkill (js "b") c3Fs).map ClaudeSkill.name = some (js "a") ∧
    js "a" ≠ js "b" := by
  decide

/-- C4: at the failing input `c4FsBoth` — a valid directory `a` next
to a directory `b` whose document has an empty metadata block — the
enumeration returns the empty list (the null metadata makes the name
check throw, and the blanket catch discards everything), whereas
without `b` the record for `a` is returned. -/
theorem c4_invalid_dir_suppresses_valid :
    getAllSkills c4FsBoth = [] ∧
    (getAllSkills c4FsValid).map ClaudeSkill.name = [js "a"] := by
  decide

/-- C7: the router normalizes the raw classification response by
trimming surrounding whitespace and stripping a single layer of
surrounding quote characters; the result is the NONE sentinel exactly
when it case-insensitively equals NONE, yielding the no-match
message, and otherwise the normalized string is resolved against the
enabled skills (routing to the matching skill, or to the no-match
message when none resolves). -/
theorem c7_response_normalization (m req w1 w2 q1 q2 core : JStr) (s : ClaudeSkill)
    (ss : List ClaudeSkill)
    (hw1 : w1.all jsIsWs = true) (hw2 : w2.all jsIsWs = true)
    (hq1 : q1 = [] ∨ ∃ c, q1 = [c] ∧ isQuoteChar c = true)
    (hq2 : q2 = [] ∨ ∃ c, q2 = [c] ∧ isQuoteChar c = true)
    (hne : core ≠ [])
    (hh : ∀ c, core.head? = some c → (jsIsWs c = false ∧ isQuoteChar c = false))
    (hl : ∀ c, core.getLast? = some c → (jsIsWs c = false ∧ isQuoteChar c = false)) :
    toolRun (some m) (s :: ss) req (Except.ok (w1 ++ ((q1 ++ (core ++ q2)) ++ w2))) =
      (if jsToUpper core = js "NONE" then (formatNoMatchMessage (s :: ss), 1)
       else
         match (s :: ss).find? (skillMatches core) with
         | some sk => (formatSkillResponse sk, 1)
         | none => (formatNoMatchMessage (s :: ss), 1)) := by
  have hnorm := normalize_sandwich hw1 hw2 hq1 hq2 hne hh hl
  simp only [List.append_assoc] at hnorm
  unfold toolRun selectSkillWithAI
  by_cases hN : jsToUpper core = js "NONE"
  · simp [hnorm, hN]
  · simp [hnorm, hN]

/-- C7 (witness): a quoted, whitespace-padded, mixed-case `NONE`
response routes to the no-match message. -/
theorem c7_response_normalization_witness :
    ((js " ").all jsIsWs = true ∧ js "NoNe" ≠ ([] : JStr)) ∧
    toolRun (some (js "gemini")) [c7Skill] (js "shorten this")
        (Except.ok (js " " ++ ((['"'] ++ (js "NoNe" ++ ([] : JStr))) ++ js " "))) =
      (if jsToUpper (js "NoNe") = js "NONE" then (formatNoMatchMessage [c7Skill], 1)
       else
         match [c7Skill].find? (skillMatches (js "NoNe")) with
         | some sk => (formatSkillResponse sk, 1)
         | none => (formatNoMatchMessage [c7Skill], 1)) :=
  ⟨⟨by decide, by decide⟩,
    c7_response_normalization (js "gemini") (js "shorten this") (js " ") (js " ")
      ['"'] ([] : JStr) (js "NoNe") c7Skill [] (by decide) (by decide)
      (Or.inr ⟨'"', rfl, by decide⟩) (Or.inl rfl) (by decide)
      (by
        intro c hc
        rw [show (js "NoNe").head? = some 'N' from rfl] at hc
        injection hc with e
        subst e
        exact ⟨by decide, by decide⟩)
      (by
        intro c hc
        rw [show (js "NoNe").getLast? = some 'e' from by decide] at hc
        injection hc with e
        subst e
        exact ⟨by decide, by decide⟩)⟩

/-- C8: calling `createSkill` twice with the same name on the same
root does not fail: after the second call the root still holds a
single directory of that name whose document is the second serialized
document, and `findSkill` for that name returns a record carrying the
second description and the second (trimmed) body. -/
theorem c8_second_create_overwrites (n d b d2 b2 p : JStr)
    (hn : safeValue n = true) (hd2 : safeValue d2 = true) :
    createSkill (createSkill [] n d b none none) n d2 b2 none none =
      [RootEnt.dir ⟨n, some (createSkillDoc n d2 none none b2), false, []⟩] ∧
    (findSkill n [some (p, createSkill (createSkill [] n d b none none) n d2 b2 none none)]).map
        (fun s => (objGet s.metadata (js "description"), s.content)) =
      some (some (YVal.str d2), jsTrim b2) := by
  have hnE : n.isEmpty = false := by
    cases n with
    | nil => exact absurd (safeValue_parts hn).1 (by decide)
    | cons c r => rfl
  have hd2E : d2.isEmpty = false := by
    cases d2 with
    | nil => exact absurd (safeValue_parts hd2).1 (by decide)
    | cons c r => rfl
  have hr1 : createSkill [] n d b none none =
      [RootEnt.dir ⟨n, some (createSkillDoc n d none none b), false, []⟩] := by
    simp [createSkill, mkdirRec, writeSkillMd]
  have hr2 : createSkill (createSkill [] n d b none none) n d2 b2 none none =
      [RootEnt.dir ⟨n, some (createSkillDoc n d2 none none b2), false, []⟩] := by
    rw [hr1]
    simp [createSkill, mkdirRec, writeSkillMd]
  refine ⟨hr2, ?_⟩
  rw [hr2]
  simp +decide [findSkill, getAllSkills, fsSkillsE, rootSkillsE, processDir,
    parse_doc_nn n d2 b2 hn hd2, truthy, objGet, skillObj, List.find?, skillMatches,
    hnE, hd2E, Except.bind]

/-- C8 (witness): the overwrite scenario at the concrete inputs of
the specification example. -/
theorem c8_second_create_overwrites_witness :
    (safeValue (js "x") = true ∧ safeValue (js "d2") = true) ∧
    (createSkill (createSkill [] (js "x") (js "d") (js "body") none none)
        (js "x") (js "d2") (js "body2") none none =
      [RootEnt.dir ⟨js "x",
        some (createSkillDoc (js "x") (js "d2") none none (js "body2")), false, []⟩] ∧
    (findSkill (js "x") [some (js "/r",
        createSkill (createSkill [] (js "x") (js "d") (js "body") none none)
          (js "x") (js "d2") (js "body2") none none)]).map
        (fun s => (objGet s.metadata (js "description"), s.content)) =
      some (some (YVal.str (js "d2")), jsTrim (js "body2"))) :=
  ⟨by decide,
    c8_second_create_overwrites (js "x") (js "d") (js "body") (js "d2") (js "body2")
      (js "/r") (by decide) (by decide)⟩

/-- C10 (amended): the delimiters need not stand on their own lines:
a document is accepted exactly when it starts with `---`, another
`---` occurs at or after index 3, and the enclosed trimmed text
parses; the metadata block ends at the first such occurrence (given
that the enclosed text holds no triple hyphen, also counting the two
dashes that follow it), so six leading hyphens give an empty (null)
metadata block and a `---` inside a metadata value ends the block
there; and a document that does not start with `---` is rejected
outright — the parser returns null for it, it is not treated as a
body-only document. -/
theorem c10_delimiter_behavior (pre post d : JStr)
    (h : hasTriple (pre ++ ['-', '-']) = false)
    (hd : p3.isPrefixOf d = false) :
    (parseSkillMarkdown (p3 ++ (pre ++ (p3 ++ post))) =
      match yamlParseDoc (jsTrim pre) with
      | .ok (some obj) => some ⟨some (camelize obj), jsTrim post⟩
      | .ok none => some ⟨none, jsTrim post⟩
      | .error _ => none) ∧
    parseSkillMarkdown d = none :=
  ⟨parse_decomp pre post h, by simp [parseSkillMarkdown, hd]⟩

/-- C10 (witness): at `pre = post = []` the document is exactly six
hyphens and parses to a null metadata block with an empty body, and
the single-character document `x` does not start with `---` and is
rejected. -/
theorem c10_delimiter_behavior_witness :
    hasTriple (([] : JStr) ++ ['-', '-']) = false ∧
    p3.isPrefixOf (js "x") = false ∧
    ((parseSkillMarkdown (p3 ++ (([] : JStr) ++ (p3 ++ ([] : JStr)))) =
      (match yamlParseDoc (jsTrim ([] : JStr)) with
       | .ok (some obj) => some ⟨some (camelize obj), jsTrim ([] : JStr)⟩
       | .ok none => some ⟨none, jsTrim ([] : JStr)⟩
       | .error _ => none)) ∧
    parseSkillMarkdown (js "x") = none) :=
  ⟨by decide, by decide, c10_delimiter_behavior [] [] (js "x") (by decide) (by decide)⟩

/-- C3 (amended): `findSkill` returns the first skill in discovery
order whose directory name or declared metadata name equals the
identifier — with no preference between the two kinds of match — and
null exactly when no discovered skill matches either way. -/
theorem c3_find_first_match (n : JStr) (fs : FS) :
    (∀ s, findSkill n fs = some s →
      skillMatches n s = true ∧
      ∃ pre post, getAllSkills fs = pre ++ s :: post ∧
        ∀ t ∈ pre, skillMatches n t = false) ∧
    (findSkill n fs = none ↔ ∀ s ∈ getAllSkills fs, skillMatches n s = false) := by
  constructor
  · intro s hs
    unfold findSkill at hs
    rw [List.find?_eq_some] at hs
    obtain ⟨hmatch, pre, post, hsplit, hpre⟩ := hs
    refine ⟨hmatch, pre, post, hsplit, fun t htm => ?_⟩
    have := hpre t htm
    cases hx : skillMatches n t
    · rfl
    · rw [hx] at this
      exact absurd this (by decide)
  · unfold findSkill
    rw [List.find?_eq_none]
    constructor
    · intro hall s hsm
      have := hall s hsm
      cases hx : skillMatches n s
      · rfl
      · exact absurd hx this
    · intro hall s hsm hx
      rw [hall s hsm] at hx
      exact Bool.false_eq_true.mp hx

/-- C3 (witness): in the two-directory fixture no skill matches the
identifier `q`, so `findSkill` returns null by the amended
characterization. -/
theorem c3_find_first_match_witness : findSkill (js "q") c3Fs = none :=
  (c3_find_first_match (js "q") c3Fs).2.mpr (by decide)

/-- C10 (counterexample): the document consisting of the three
characters `---` begins with the opening delimiter yet is rejected,
because no closing `---` occurs at or after index 3. -/
theorem c10_counterexample :
    (js "---").isPrefixOf (js "---") = true ∧ parseSkillMarkdown (js "---") = none := by
  decide

end AiSkills
